import Mathlib

set_option linter.unusedVariables false
set_option linter.unusedSectionVars false

/-!
Verification of the ThreadSafeMap repository (src/key_value.h, src/safe_map.h).

The C++ store keeps one logical record (`KeyValue<K, V>`) shared by pointer
between three containers: `_data_map` (unordered_map, the LookupTable),
`_min_expire_heap` (priority queue by ascending expire_time, the ExpiryIndex)
and `_queue` (deque in insert order, the OrderIndex).  We embed the shared
mutable records as an arena `recs : List (Rec K V)`; the three containers hold
arena indices, so tombstoning through one container is visible from the others,
exactly as the shared_ptr aliasing in the source.

Timestamps are integers (milliseconds).  Every `system_clock::now()` call made
while the store's single mutex is held is modelled by the one acquisition-time
parameter `now` of the operation; operations of a run are serialized with
non-decreasing acquisition times (inductive `Reach`), which is the monotonicity
the spec derives from the single critical section.
-/

namespace ThreadSafeMap

/-- Embedding of `KeyValue<K, V>` (key_value.h).  `expire_time_interval = -1`
means "never expires"; `is_delete` is the one-way tombstone flag. -/
structure Rec (K V : Type) where
  key : K
  value : V
  insert_time : Int
  expire_time : Int
  expire_time_interval : Int
  is_delete : Bool
deriving DecidableEq

variable {K V : Type} [DecidableEq K] [Inhabited K] [Inhabited V]

instance : Inhabited (Rec K V) :=
  ⟨⟨default, default, 0, 0, 0, false⟩⟩

/-- The `KeyValue(key, value, expire_time_interval)` constructor: insert time is
the current time, `expire_time = insert_time + interval` (computed even for the
`-1` sentinel, as in the source, where it is then never consulted). -/
def mkKV (k : K) (v : V) (interval : Int) (now : Int) : Rec K V :=
  { key := k, value := v, insert_time := now, expire_time := now + interval,
    expire_time_interval := interval, is_delete := false }

/-- `KeyValue::is_expire()`: deleted records count as expired; `-1` interval
never expires; otherwise expired iff `now > expire_time`. -/
def is_expire (now : Int) (r : Rec K V) : Bool :=
  if r.is_delete then true
  else if r.expire_time_interval = -1 then false
  else decide (r.expire_time < now)

/-- A record that is past its TTL deadline by the clock alone (independently of
the tombstone flag). -/
def timeExpired (now : Int) (r : Rec K V) : Prop :=
  r.expire_time_interval ≠ -1 ∧ r.expire_time < now

instance (now : Int) (r : Rec K V) : Decidable (timeExpired now r) := by
  unfold timeExpired; infer_instance

/-- Arena read: dereference a record id (shared_ptr dereference in the source;
ids are in range in every reachable state). -/
def recAt (recs : List (Rec K V)) (id : Nat) : Rec K V :=
  recs.getD id default

/-- `KeyValue::delete_value()` through the arena: set the tombstone flag of the
record at `id` (no-op out of range). -/
def tombAt : List (Rec K V) → Nat → List (Rec K V)
  | [], _ => []
  | r :: rs, 0 => { r with is_delete := true } :: rs
  | r :: rs, n + 1 => r :: tombAt rs n

/-- Association-list lookup modelling `unordered_map::count/operator[]`. -/
def lookup : List (K × Nat) → K → Option Nat
  | [], _ => none
  | (k', id) :: rest, k => if k = k' then some id else lookup rest k

/-- `unordered_map::erase(key)`: remove the entry of `key` (keys are unique in
the map by construction). -/
def eraseEntry (k : K) : List (K × Nat) → List (K × Nat)
  | [] => []
  | (k', id) :: rest => if k = k' then rest else (k', id) :: eraseEntry k rest

/-- `_data_map[key] = v`: insert or assign. -/
def mapInsert (k : K) (id : Nat) : List (K × Nat) → List (K × Nat)
  | [] => [(k, id)]
  | (k', id') :: rest => if k = k' then (k, id) :: rest else (k', id') :: mapInsert k id rest

/-- The store state: record arena plus the three containers of `SafeMap`
(`_data_map`, `_min_expire_heap` as a bag with min-extraction, `_queue`). -/
structure SMap (K V : Type) where
  recs : List (Rec K V)
  data_map : List (K × Nat)
  min_expire_heap : List Nat
  queue : List Nat
deriving DecidableEq

def emptySMap : SMap K V := ⟨[], [], [], []⟩

/-- `SafeMap::insert_without_lock`: fail if the key is present; otherwise push
the record onto the heap, append it to the queue, and map the key to it. -/
def insert_without_lock (k : K) (r : Rec K V) (s : SMap K V) : Bool × SMap K V :=
  if (lookup s.data_map k).isSome then (false, s)
  else
    (true,
      { recs := s.recs ++ [r],
        data_map := mapInsert k s.recs.length s.data_map,
        min_expire_heap := s.min_expire_heap ++ [s.recs.length],
        queue := s.queue ++ [s.recs.length] })

/-- `SafeMap::insert`: build the record at acquisition time `now`, then insert
under the lock. -/
def insert (k : K) (v : V) (interval : Int) (now : Int) (s : SMap K V) : Bool × SMap K V :=
  insert_without_lock k (mkKV k v interval now) s

/-- `SafeMap::erase_without_lock`: if the key is present, tombstone the mapped
record and remove the map entry (the heap and queue are cleaned lazily). -/
def erase_without_lock (k : K) (s : SMap K V) : Bool × SMap K V :=
  match lookup s.data_map k with
  | none => (false, s)
  | some id =>
    (true, { s with recs := tombAt s.recs id, data_map := eraseEntry k s.data_map })

def erase_by_key (k : K) (s : SMap K V) : Bool × SMap K V :=
  erase_without_lock k s

/-- `SafeMap::get_range`: `low` is the first queue position whose record has
`insert_time >= start_time`, `high` the first with `insert_time > end_time`
(what `std::upper_bound` returns on a range partitioned by those predicates);
the result is the id subrange `[low, high)`. -/
def get_range (recs : List (Rec K V)) (q : List Nat) (start_time end_time : Int) : List Nat :=
  let low := q.findIdx (fun id => decide (start_time ≤ (recAt recs id).insert_time))
  let high := q.findIdx (fun id => decide (end_time < (recAt recs id).insert_time))
  (q.drop low).take (high - low)

/-- Loop body shared by `erase_by_time_range` and `erase_by_order`:
`(*it)->delete_value(); erase_without_lock((*it)->get_key())`. -/
def tombAndErase (s : SMap K V) (id : Nat) : Bool × SMap K V :=
  let s1 : SMap K V := { s with recs := tombAt s.recs id }
  erase_without_lock (recAt s1.recs id).key s1

def eraseRangeLoop : List Nat → Nat → SMap K V → Nat × SMap K V
  | [], c, s => (c, s)
  | id :: rest, c, s =>
    let p := tombAndErase s id
    eraseRangeLoop rest (if p.fst then c + 1 else c) p.snd

/-- `SafeMap::erase_by_time_range`: 0 and no mutation when `start > end`;
otherwise tombstone each record of the `get_range` subrange of `_queue` and
erase its key, counting the successful key removals. -/
def erase_by_time_range (start_time end_time : Int) (s : SMap K V) : Nat × SMap K V :=
  if end_time < start_time then (0, s)
  else eraseRangeLoop (get_range s.recs s.queue start_time end_time) 0 s

def eraseOrderLoop (n : Int) (now : Int) : List Nat → Nat → SMap K V → Nat × SMap K V
  | [], c, s => (c, s)
  | id :: rest, c, s =>
    if is_expire now (recAt s.recs id) then eraseOrderLoop n now rest c s
    else
      let p := tombAndErase s id
      let c' := if p.fst then c + 1 else c
      if n ≤ (c' : Int) then (c', p.snd)
      else eraseOrderLoop n now rest c' p.snd

/-- `SafeMap::erase_by_order`: walk `_queue` from the front (`asc`) or the back,
skip expired records, tombstone-and-erase live ones, stopping as soon as the
count reaches `n` (the comparison is made after each non-expired visit). -/
def erase_by_order (n : Int) (asc : Bool) (now : Int) (s : SMap K V) : Nat × SMap K V :=
  eraseOrderLoop n now (if asc then s.queue else s.queue.reverse) 0 s

/-- `SafeMap::update_value` with the source's TTL policy: interval `0` keeps the
old record's interval (re-based at the new insert time), `-1`/explicit set it;
the old record is tombstoned and erased by its own key, then the new record is
inserted. -/
def update_value (k : K) (v : V) (interval : Int) (now : Int) (s : SMap K V) : Bool × SMap K V :=
  match lookup s.data_map k with
  | none => (false, s)
  | some oldId =>
    let old := recAt s.recs oldId
    let newRec :=
      if interval = 0 then
        if old.expire_time_interval = -1 then mkKV k v (-1) now
        else mkKV k v old.expire_time_interval now
      else mkKV k v interval now
    let s1 : SMap K V := { s with recs := tombAt s.recs oldId }
    let s2 := (erase_without_lock old.key s1).snd
    (true, (insert_without_lock k newRec s2).snd)

/-- `SafeMap::get_by_key`: absent keys give `none`; a present but expired
record is erased from `_data_map` (its tombstone flag is not touched) and gives
`none`; otherwise a copy of the value is returned with no mutation. -/
def get_by_key (k : K) (now : Int) (s : SMap K V) : Option V × SMap K V :=
  match lookup s.data_map k with
  | none => (none, s)
  | some id =>
    if is_expire now (recAt s.recs id) then
      (none, { s with data_map := eraseEntry k s.data_map })
    else (some (recAt s.recs id).value, s)

/-- `SafeMap::get_by_time_range`: empty for `start > end`; otherwise the
non-expired records of the `get_range` subrange of a snapshot of `_queue`
(the `asc` parameter is accepted and ignored, as in the source). -/
def get_by_time_range (start_time end_time : Int) (asc : Bool) (now : Int)
    (s : SMap K V) : List (Rec K V) :=
  if end_time < start_time then []
  else
    ((get_range s.recs s.queue start_time end_time).filter
      (fun id => !is_expire now (recAt s.recs id))).map (recAt s.recs)

def getOrderLoop (n : Int) (now : Int) (recs : List (Rec K V)) :
    List Nat → Nat → List (Rec K V)
  | [], _ => []
  | id :: rest, c =>
    if is_expire now (recAt recs id) then getOrderLoop n now recs rest c
    else if n ≤ ((c + 1 : Nat) : Int) then [recAt recs id]
    else recAt recs id :: getOrderLoop n now recs rest (c + 1)

/-- `SafeMap::get_by_order`: walk a snapshot of `_queue` from the chosen end,
collect non-expired records until the count reaches `n` (checked after each
collection); no store mutation. -/
def get_by_order (n : Int) (asc : Bool) (now : Int) (s : SMap K V) : List (Rec K V) :=
  getOrderLoop n now s.recs (if asc then s.queue else s.queue.reverse) 0

/-- Extract the minimum-`expire_time` element of the heap bag together with the
remaining bag (`priority_queue::top/pop` with the source's comparator; ties go
to the earlier element). -/
def heapExtract (recs : List (Rec K V)) : List Nat → Option (Nat × List Nat)
  | [] => none
  | id :: rest =>
    match heapExtract recs rest with
    | none => some (id, [])
    | some (j, rest') =>
      if (recAt recs id).expire_time ≤ (recAt recs j).expire_time then some (id, rest)
      else some (j, id :: rest')

def tickGo (now : Int) : Nat → SMap K V → SMap K V
  | 0, s => s
  | fuel + 1, s =>
    match heapExtract s.recs s.min_expire_heap with
    | none => s
    | some (id, rest) =>
      if is_expire now (recAt s.recs id) then
        tickGo now fuel { s with recs := tombAt s.recs id, min_expire_heap := rest }
      else s

/-- `SafeMap::tick`: while the heap top is expired, tombstone it and pop it;
`_data_map` and `_queue` are not touched.  Each iteration pops one element, so
the heap size is enough fuel to run the loop to completion. -/
def tick (now : Int) (s : SMap K V) : SMap K V :=
  tickGo now s.min_expire_heap.length s

/-- Heap phase of `SafeMap::tick_all`: pop every element in ascending
expire-time order, tombstoning and dropping the expired ones and keeping the
rest (in popped order, as the pushes into the fresh heap produce). -/
def sweepHeapGo (now : Int) : Nat → List (Rec K V) → List Nat → List (Rec K V) × List Nat
  | 0, recs, _ => (recs, [])
  | fuel + 1, recs, heap =>
    match heapExtract recs heap with
    | none => (recs, [])
    | some (id, rest) =>
      if is_expire now (recAt recs id) then sweepHeapGo now fuel (tombAt recs id) rest
      else
        let p := sweepHeapGo now fuel recs rest
        (p.fst, id :: p.snd)

/-- Queue phase of `SafeMap::tick_all`: pop the front repeatedly, tombstoning
and dropping expired records, keeping the rest in order. -/
def sweepQueue (now : Int) : List (Rec K V) → List Nat → List (Rec K V) × List Nat
  | recs, [] => (recs, [])
  | recs, id :: rest =>
    if is_expire now (recAt recs id) then sweepQueue now (tombAt recs id) rest
    else
      let p := sweepQueue now recs rest
      (p.fst, id :: p.snd)

/-- Map phase of `SafeMap::tick_all`: drop every entry whose record is expired,
tombstoning it at removal. -/
def sweepMap (now : Int) : List (Rec K V) → List (K × Nat) → List (Rec K V) × List (K × Nat)
  | recs, [] => (recs, [])
  | recs, (k, id) :: rest =>
    if is_expire now (recAt recs id) then sweepMap now (tombAt recs id) rest
    else
      let p := sweepMap now recs rest
      (p.fst, (k, id) :: p.snd)

/-- `SafeMap::tick_all`: full sweep of the heap, then the queue, then the map,
dropping every record that is expired when visited. -/
def tick_all (now : Int) (s : SMap K V) : SMap K V :=
  let p1 := sweepHeapGo now s.min_expire_heap.length s.recs s.min_expire_heap
  let p2 := sweepQueue now p1.fst s.queue
  let p3 := sweepMap now p2.fst s.data_map
  { recs := p3.fst, data_map := p3.snd, min_expire_heap := p1.snd, queue := p2.snd }

/-- Reachability: states produced from the empty store by serialized operations
whose lock-acquisition times never decrease (the spec's monotonic-clock
assumption for the single critical section). -/
inductive Reach : SMap K V → Int → Prop
  | init : Reach emptySMap 0
  | tmAdv {s t u} : Reach s t → t ≤ u → Reach s u
  | rInsert {s t} (k : K) (v : V) (interval : Int) :
      Reach s t → Reach (insert k v interval t s).snd t
  | rEraseKey {s t} (k : K) : Reach s t → Reach (erase_by_key k s).snd t
  | rEraseRange {s t} (a b : Int) : Reach s t → Reach (erase_by_time_range a b s).snd t
  | rEraseOrder {s t} (n : Int) (asc : Bool) :
      Reach s t → Reach (erase_by_order n asc t s).snd t
  | rUpdate {s t} (k : K) (v : V) (interval : Int) :
      Reach s t → Reach (update_value k v interval t s).snd t
  | rGet {s t} (k : K) : Reach s t → Reach (get_by_key k t s).snd t
  | rTick {s t} : Reach s t → Reach (tick t s) t
  | rTickAll {s t} : Reach s t → Reach (tick_all t s) t

/-- The store invariant at time `t`.  `mdel` is the corrected LookupTable
tombstone invariant (a tombstoned record can stay mapped after `tick`, but only
when it is already past its deadline); `qlive` is the OrderIndex/LookupTable
agreement; `qsorted` is the monotone insert-time order of `_queue`. -/
structure Inv (s : SMap K V) (t : Int) : Prop where
  qlt : ∀ id ∈ s.queue, id < s.recs.length
  mlt : ∀ p ∈ s.data_map, p.2 < s.recs.length
  hlt : ∀ id ∈ s.min_expire_heap, id < s.recs.length
  mkey : ∀ p ∈ s.data_map, (recAt s.recs p.2).key = p.1
  mnodup : (s.data_map.map Prod.fst).Nodup
  mdel : ∀ p ∈ s.data_map, (recAt s.recs p.2).is_delete = true →
    timeExpired t (recAt s.recs p.2)
  qlive : ∀ id ∈ s.queue, is_expire t (recAt s.recs id) = false →
    lookup s.data_map (recAt s.recs id).key = some id
  qsorted : s.queue.Pairwise
    (fun a b => (recAt s.recs a).insert_time ≤ (recAt s.recs b).insert_time)
  tbound : ∀ r ∈ s.recs, r.insert_time ≤ t
  liveq : ∀ id, id < s.recs.length → is_expire t (recAt s.recs id) = false → id ∈ s.queue

/-! Concrete states used to witness and refute claims. -/

/-- One key inserted at time 0 with a 5 ms TTL. -/
def st1 : SMap Nat Nat := (insert 1 0 5 0 emptySMap).snd

/-- `st1` after an incremental `tick` at time 10: the record has been
tombstoned off the heap but key 1 is still in the map. -/
def stTick : SMap Nat Nat := tick 10 st1

/-- Key 1 inserted at time 10 without TTL. -/
def stA : SMap Nat Nat := (insert 1 0 (-1) 10 emptySMap).snd

/-- `stA` after `update_value` at time 20: the stale tombstoned record (insert
time 10) is still in `_queue` while the map holds the fresh record (insert time
20). -/
def stB : SMap Nat Nat := (update_value 1 1 0 20 stA).snd

/-- A never-expiring record inserted at time 0 (stays live forever). -/
def stLive : SMap Nat Nat := (insert 1 0 (-1) 0 emptySMap).snd

/-! ### Arena lemmas -/

theorem tombAt_length (recs : List (Rec K V)) (i : Nat) :
    (tombAt recs i).length = recs.length := by
  induction recs generalizing i with
  | nil => rfl
  | cons r rs ih => cases i with
    | zero => rfl
    | succ n => simpa [tombAt] using ih n

theorem recAt_tombAt_ne (recs : List (Rec K V)) {i j : Nat} (h : j ≠ i) :
    recAt (tombAt recs i) j = recAt recs j := by
  induction recs generalizing i j with
  | nil => rfl
  | cons r rs ih =>
    cases i with
    | zero =>
      cases j with
      | zero => exact absurd rfl h
      | succ m => rfl
    | succ n =>
      cases j with
      | zero => rfl
      | succ m =>
        simpa [tombAt, recAt, List.getD] using ih (fun hc => h (by omega))

theorem recAt_tombAt_self (recs : List (Rec K V)) {i : Nat} (h : i < recs.length) :
    recAt (tombAt recs i) i = { recAt recs i with is_delete := true } := by
  induction recs generalizing i with
  | nil => simp at h
  | cons r rs ih =>
    cases i with
    | zero => rfl
    | succ n =>
      have hn : n < rs.length := by simpa using h
      simpa [tombAt, recAt, List.getD] using ih hn

theorem recAt_tombAt_fields (recs : List (Rec K V)) (i j : Nat) :
    (recAt (tombAt recs i) j).key = (recAt recs j).key ∧
    (recAt (tombAt recs i) j).insert_time = (recAt recs j).insert_time ∧
    (recAt (tombAt recs i) j).expire_time = (recAt recs j).expire_time ∧
    (recAt (tombAt recs i) j).expire_time_interval = (recAt recs j).expire_time_interval := by
  by_cases hij : j = i
  · subst hij
    by_cases hlt : j < recs.length
    · rw [recAt_tombAt_self recs hlt]
      exact ⟨rfl, rfl, rfl, rfl⟩
    · have hlen : (tombAt recs j).length = recs.length := tombAt_length recs j
      have h1 : recAt (tombAt recs j) j = default := by
        unfold recAt
        exact List.getD_eq_default _ _ (by omega)
      have h2 : recAt recs j = default := by
        unfold recAt
        exact List.getD_eq_default _ _ (by omega)
      rw [h1, h2]
      exact ⟨rfl, rfl, rfl, rfl⟩
  · rw [recAt_tombAt_ne recs hij]
    exact ⟨rfl, rfl, rfl, rfl⟩

theorem is_delete_tombAt_mono (recs : List (Rec K V)) {i j : Nat}
    (h : (recAt recs j).is_delete = true) :
    (recAt (tombAt recs i) j).is_delete = true := by
  by_cases hij : j = i
  · subst hij
    by_cases hlt : j < recs.length
    · rw [recAt_tombAt_self recs hlt]
    · have hlen : (tombAt recs j).length = recs.length := tombAt_length recs j
      have h1 : recAt (tombAt recs j) j = default := by
        unfold recAt; exact List.getD_eq_default _ _ (by omega)
      have h2 : recAt recs j = default := by
        unfold recAt; exact List.getD_eq_default _ _ (by omega)
      rw [h1]; rw [h2] at h; exact h
  · rw [recAt_tombAt_ne recs hij]; exact h

theorem is_delete_tombAt_cases (recs : List (Rec K V)) {i j : Nat}
    (h : (recAt (tombAt recs i) j).is_delete = true) :
    (recAt recs j).is_delete = true ∨ j = i := by
  by_cases hij : j = i
  · exact Or.inr hij
  · rw [recAt_tombAt_ne recs hij] at h; exact Or.inl h

theorem recAt_append_lt (recs : List (Rec K V)) (r : Rec K V) {id : Nat}
    (h : id < recs.length) : recAt (recs ++ [r]) id = recAt recs id := by
  unfold recAt
  rw [List.getD_eq_getElem _ _ (by simpa using Nat.lt_succ_of_lt h),
    List.getD_eq_getElem _ _ h, List.getElem_append_left h]

theorem recAt_append_len (recs : List (Rec K V)) (r : Rec K V) :
    recAt (recs ++ [r]) recs.length = r := by
  unfold recAt
  rw [List.getD_eq_getElem _ _ (by simp)]
  simp

theorem recAt_mem (recs : List (Rec K V)) {id : Nat} (h : id < recs.length) :
    recAt recs id ∈ recs := by
  unfold recAt
  rw [List.getD_eq_getElem _ _ h]
  exact List.getElem_mem _

theorem mem_tombAt (recs : List (Rec K V)) (i : Nat) {r' : Rec K V}
    (h : r' ∈ tombAt recs i) :
    r' ∈ recs ∨ ∃ r ∈ recs, r' = { r with is_delete := true } := by
  induction recs generalizing i with
  | nil => simp [tombAt] at h
  | cons r rs ih =>
    cases i with
    | zero =>
      rcases (by simpa [tombAt] using h) with h | h
      · exact Or.inr ⟨r, by simp, h⟩
      · exact Or.inl (List.mem_cons_of_mem _ h)
    | succ n =>
      rcases (by simpa [tombAt] using h) with h | h
      · exact Or.inl (by simp [h])
      · rcases ih n h with h | ⟨r₀, hr₀, he⟩
        · exact Or.inl (List.mem_cons_of_mem _ h)
        · exact Or.inr ⟨r₀, List.mem_cons_of_mem _ hr₀, he⟩

/-! ### Association-list lemmas -/

theorem lookup_mem {m : List (K × Nat)} {k : K} {id : Nat}
    (h : lookup m k = some id) : (k, id) ∈ m := by
  induction m with
  | nil => simp [lookup] at h
  | cons p rest ih =>
    obtain ⟨k', id'⟩ := p
    by_cases hk : k = k'
    · subst hk
      simp [lookup] at h
      simp [h]
    · simp [lookup, hk] at h
      exact List.mem_cons_of_mem _ (ih h)

theorem lookup_eq_none_iff {m : List (K × Nat)} {k : K} :
    lookup m k = none ↔ ∀ p ∈ m, p.1 ≠ k := by
  induction m with
  | nil => simp [lookup]
  | cons p rest ih =>
    obtain ⟨k', id'⟩ := p
    by_cases hk : k = k'
    · subst hk; simp [lookup]
    · simp [lookup, hk, ih]
      intro _
      exact fun h => hk h.symm

theorem lookup_of_mem_nodup {m : List (K × Nat)} {k : K} {id : Nat}
    (hnd : (m.map Prod.fst).Nodup) (h : (k, id) ∈ m) : lookup m k = some id := by
  induction m with
  | nil => simp at h
  | cons p rest ih =>
    obtain ⟨k', id'⟩ := p
    rw [List.map_cons, List.nodup_cons] at hnd
    rcases List.mem_cons.mp h with heq | hmem
    · obtain ⟨h1, h2⟩ := Prod.ext_iff.mp heq
      simp only at h1 h2
      simp [lookup, h1, h2]
    · have hk : k ≠ k' := fun he =>
        hnd.1 (he ▸ List.mem_map.mpr ⟨(k, id), hmem, rfl⟩)
      simp only [lookup, if_neg hk]
      exact ih hnd.2 hmem

theorem lookup_mapInsert_self (m : List (K × Nat)) (k : K) (id : Nat) :
    lookup (mapInsert k id m) k = some id := by
  induction m with
  | nil => simp [mapInsert, lookup]
  | cons p rest ih =>
    obtain ⟨k', id'⟩ := p
    by_cases hk : k = k'
    · simp [mapInsert, hk, lookup]
    · simp [mapInsert, hk, lookup, ih]

theorem lookup_mapInsert_ne (m : List (K × Nat)) {k k' : K} (id : Nat) (h : k' ≠ k) :
    lookup (mapInsert k id m) k' = lookup m k' := by
  induction m with
  | nil => simp [mapInsert, lookup, h]
  | cons p rest ih =>
    obtain ⟨k'', id''⟩ := p
    by_cases hk : k = k''
    · subst hk
      simp [mapInsert, lookup, h]
    · by_cases hk2 : k' = k''
      · simp [mapInsert, hk, lookup, hk2]
      · simp [mapInsert, hk, lookup, hk2, ih]

theorem mapInsert_of_lookup_none {m : List (K × Nat)} {k : K} (id : Nat)
    (h : lookup m k = none) : mapInsert k id m = m ++ [(k, id)] := by
  induction m with
  | nil => rfl
  | cons p rest ih =>
    obtain ⟨k', id'⟩ := p
    by_cases hk : k = k'
    · simp [lookup, hk] at h
    · simp only [lookup, if_neg hk] at h
      simp [mapInsert, hk, ih h]

theorem eraseEntry_sublist (k : K) (m : List (K × Nat)) :
    (eraseEntry k m).Sublist m := by
  induction m with
  | nil => simp [eraseEntry]
  | cons p rest ih =>
    obtain ⟨k', id'⟩ := p
    by_cases hk : k = k'
    · simp only [eraseEntry, if_pos hk]
      exact (List.sublist_cons_self _ _)
    · simp only [eraseEntry, if_neg hk]
      exact ih.cons₂ _

theorem lookup_eraseEntry_ne (m : List (K × Nat)) {k k' : K} (h : k' ≠ k) :
    lookup (eraseEntry k m) k' = lookup m k' := by
  induction m with
  | nil => rfl
  | cons p rest ih =>
    obtain ⟨k'', id''⟩ := p
    by_cases hk : k = k''
    · subst hk
      simp [eraseEntry, lookup, h]
    · by_cases hk2 : k' = k''
      · simp [eraseEntry, hk, lookup, hk2]
      · simp [eraseEntry, hk, lookup, hk2, ih]

theorem lookup_eraseEntry_self {m : List (K × Nat)} {k : K}
    (hnd : (m.map Prod.fst).Nodup) : lookup (eraseEntry k m) k = none := by
  induction m with
  | nil => rfl
  | cons p rest ih =>
    obtain ⟨k', id'⟩ := p
    rw [List.map_cons, List.nodup_cons] at hnd
    by_cases hk : k = k'
    · subst hk
      simp only [eraseEntry, if_pos rfl]
      rw [lookup_eq_none_iff]
      intro p hp he
      exact hnd.1 (he ▸ List.mem_map.mpr ⟨p, hp, rfl⟩)
    · simp only [eraseEntry, if_neg hk, lookup, if_neg hk]
      exact ih hnd.2

theorem length_eraseEntry {m : List (K × Nat)} {k : K} {id : Nat}
    (h : lookup m k = some id) : (eraseEntry k m).length + 1 = m.length := by
  induction m with
  | nil => simp [lookup] at h
  | cons p rest ih =>
    obtain ⟨k', id'⟩ := p
    by_cases hk : k = k'
    · simp [eraseEntry, hk]
    · simp only [lookup, if_neg hk] at h
      simp [eraseEntry, hk, ← ih h]

theorem eraseEntry_of_lookup_none {m : List (K × Nat)} {k : K}
    (h : lookup m k = none) : eraseEntry k m = m := by
  induction m with
  | nil => rfl
  | cons p rest ih =>
    obtain ⟨k', id'⟩ := p
    by_cases hk : k = k'
    · simp [lookup, hk] at h
    · simp only [lookup, if_neg hk] at h
      simp [eraseEntry, hk, ih h]

theorem lookup_none_of_sublist {m' m : List (K × Nat)} {k : K}
    (hsub : m'.Sublist m) (h : lookup m k = none) : lookup m' k = none := by
  rw [lookup_eq_none_iff] at h ⊢
  exact fun p hp => h p (hsub.mem hp)

theorem nodup_keys_sublist {m' m : List (K × Nat)}
    (hsub : m'.Sublist m) (h : (m.map Prod.fst).Nodup) : (m'.map Prod.fst).Nodup :=
  (hsub.map Prod.fst).nodup h

/-! ### Liveness and expiry lemmas -/

theorem is_expire_of_delete {r : Rec K V} (h : r.is_delete = true) (t : Int) :
    is_expire t r = true := by simp [is_expire, h]

theorem not_delete_of_live {r : Rec K V} {t : Int} (h : is_expire t r = false) :
    r.is_delete = false := by
  by_contra hc
  rw [is_expire_of_delete (by simpa using hc) t] at h
  exact absurd h (by simp)

theorem is_expire_true_elim {r : Rec K V} {t : Int} (h : is_expire t r = true) :
    r.is_delete = true ∨ timeExpired t r := by
  unfold is_expire at h
  cases hd : r.is_delete with
  | true => exact Or.inl rfl
  | false =>
    rw [hd] at h
    by_cases hi : r.expire_time_interval = -1
    · simp [hi] at h
    · simp only [Bool.false_eq_true, if_false, if_neg hi, decide_eq_true_eq] at h
      exact Or.inr ⟨hi, h⟩

theorem is_expire_of_timeExpired {r : Rec K V} {t : Int} (h : timeExpired t r) :
    is_expire t r = true := by
  by_cases hd : r.is_delete
  · exact is_expire_of_delete (by simpa using hd) t
  · simp [is_expire, hd, h.1, h.2]

theorem timeExpired_mono {r : Rec K V} {t u : Int} (htu : t ≤ u)
    (h : timeExpired t r) : timeExpired u r :=
  ⟨h.1, lt_of_lt_of_le h.2 htu⟩

theorem live_mono_back {r : Rec K V} {t u : Int} (htu : t ≤ u)
    (h : is_expire u r = false) : is_expire t r = false := by
  by_contra hc
  rcases is_expire_true_elim (by simpa using hc) with hd | he
  · rw [is_expire_of_delete hd u] at h; exact absurd h (by simp)
  · rw [is_expire_of_timeExpired (timeExpired_mono htu he)] at h
    exact absurd h (by simp)

theorem is_expire_eq_of_fields {r r' : Rec K V} (t : Int)
    (hd : r'.is_delete = r.is_delete) (hi : r'.expire_time_interval = r.expire_time_interval)
    (he : r'.expire_time = r.expire_time) : is_expire t r' = is_expire t r := by
  simp [is_expire, hd, hi, he]

theorem timeExpired_iff_of_fields {r r' : Rec K V} (t : Int)
    (hi : r'.expire_time_interval = r.expire_time_interval)
    (he : r'.expire_time = r.expire_time) : timeExpired t r' ↔ timeExpired t r := by
  simp [timeExpired, hi, he]

/-! ### Arena evolution under reclamation (tick / tick_all phases) -/

/-- How the arena changes during a reclamation pass at time `now`: lengths and
all immutable fields are preserved, tombstones only accumulate, and a freshly
set tombstone only ever hits a record that was already expired. -/
structure Evolve (now : Int) (recs recs' : List (Rec K V)) : Prop where
  len : recs'.length = recs.length
  keyEq : ∀ j, (recAt recs' j).key = (recAt recs j).key
  itimeEq : ∀ j, (recAt recs' j).insert_time = (recAt recs j).insert_time
  etimeEq : ∀ j, (recAt recs' j).expire_time = (recAt recs j).expire_time
  intervalEq : ∀ j, (recAt recs' j).expire_time_interval = (recAt recs j).expire_time_interval
  delMono : ∀ j, (recAt recs j).is_delete = true → (recAt recs' j).is_delete = true
  newDel : ∀ j, (recAt recs' j).is_delete = true →
    (recAt recs j).is_delete = true ∨ is_expire now (recAt recs j) = true

theorem evolve_refl {now : Int} (recs : List (Rec K V)) : Evolve now recs recs :=
  ⟨Eq.refl _, fun _ => Eq.refl _, fun _ => Eq.refl _, fun _ => Eq.refl _, fun _ => Eq.refl _,
    fun _ h => h, fun _ h => Or.inl h⟩

theorem Evolve.expire_mono {now : Int} {recs recs' : List (Rec K V)}
    (E : Evolve now recs recs') (j : Nat)
    (h : is_expire now (recAt recs j) = true) : is_expire now (recAt recs' j) = true := by
  rcases is_expire_true_elim h with hd | he
  · exact is_expire_of_delete (E.delMono j hd) now
  · exact is_expire_of_timeExpired
      ((timeExpired_iff_of_fields now (E.intervalEq j) (E.etimeEq j)).mpr he)

theorem Evolve.live_back {now : Int} {recs recs' : List (Rec K V)}
    (E : Evolve now recs recs') (j : Nat)
    (h : is_expire now (recAt recs' j) = false) : is_expire now (recAt recs j) = false := by
  by_contra hc
  rw [E.expire_mono j (by simpa using hc)] at h
  exact absurd h (by simp)

theorem evolve_trans {now : Int} {r1 r2 r3 : List (Rec K V)}
    (E1 : Evolve now r1 r2) (E2 : Evolve now r2 r3) : Evolve now r1 r3 := by
  refine ⟨E2.len.trans E1.len, fun j => (E2.keyEq j).trans (E1.keyEq j),
    fun j => (E2.itimeEq j).trans (E1.itimeEq j),
    fun j => (E2.etimeEq j).trans (E1.etimeEq j),
    fun j => (E2.intervalEq j).trans (E1.intervalEq j),
    fun j h => E2.delMono j (E1.delMono j h), fun j h => ?_⟩
  rcases E2.newDel j h with h2 | h2
  · exact E1.newDel j h2
  · rcases is_expire_true_elim h2 with hd | he
    · exact E1.newDel j hd
    · exact Or.inr (is_expire_of_timeExpired
        ((timeExpired_iff_of_fields now (E1.intervalEq j) (E1.etimeEq j)).mp he))

theorem Evolve.tombAt_expired {now : Int} {recs : List (Rec K V)} {i : Nat}
    (h : is_expire now (recAt recs i) = true) : Evolve now recs (tombAt recs i) := by
  refine ⟨tombAt_length recs i, fun j => (recAt_tombAt_fields recs i j).1,
    fun j => (recAt_tombAt_fields recs i j).2.1,
    fun j => (recAt_tombAt_fields recs i j).2.2.1,
    fun j => (recAt_tombAt_fields recs i j).2.2.2,
    fun j hj => is_delete_tombAt_mono recs hj, fun j hj => ?_⟩
  rcases is_delete_tombAt_cases recs hj with hd | he
  · exact Or.inl hd
  · subst he; exact Or.inr h

theorem tombAt_comm (recs : List (Rec K V)) (i j : Nat) :
    tombAt (tombAt recs i) j = tombAt (tombAt recs j) i := by
  induction recs generalizing i j with
  | nil => rfl
  | cons r rs ih =>
    cases i with
    | zero =>
      cases j with
      | zero => rfl
      | succ m => rfl
    | succ n =>
      cases j with
      | zero => rfl
      | succ m => simpa [tombAt] using ih n m

/-! ### Heap extraction lemmas -/

theorem heapExtract_eq_none {recs : List (Rec K V)} {heap : List Nat} :
    heapExtract recs heap = none ↔ heap = [] := by
  cases heap with
  | nil => simp [heapExtract]
  | cons id rest =>
    simp only [heapExtract]
    cases heapExtract recs rest with
    | none => simp
    | some p =>
      obtain ⟨j, rest'⟩ := p
      by_cases hle : (recAt recs id).expire_time ≤ (recAt recs j).expire_time <;>
        simp [hle]

theorem heapExtract_mem {recs : List (Rec K V)} {heap : List Nat} {id : Nat}
    {rest : List Nat} (h : heapExtract recs heap = some (id, rest)) :
    id ∈ heap ∧ ∀ x ∈ rest, x ∈ heap := by
  induction heap generalizing id rest with
  | nil => simp [heapExtract] at h
  | cons a as ih =>
    cases hrec : heapExtract recs as with
    | none =>
      simp only [heapExtract, hrec, Option.some.injEq, Prod.mk.injEq] at h
      obtain ⟨h1, h2⟩ := h
      subst h1
      exact ⟨by simp, by simp [← h2]⟩
    | some p =>
      obtain ⟨j, rest'⟩ := p
      simp only [heapExtract, hrec] at h
      by_cases hle : (recAt recs a).expire_time ≤ (recAt recs j).expire_time
      · rw [if_pos hle] at h
        obtain ⟨h1, h2⟩ := Prod.ext_iff.mp (Option.some_injective _ h)
        simp only at h1 h2
        subst h1; subst h2
        exact ⟨by simp, fun x hx => by simp [hx]⟩
      · rw [if_neg hle] at h
        obtain ⟨h1, h2⟩ := Prod.ext_iff.mp (Option.some_injective _ h)
        simp only at h1 h2
        subst h1
        have hj := (ih hrec).1
        refine ⟨by simp [hj], fun x hx => ?_⟩
        rw [← h2] at hx
        rcases List.mem_cons.mp hx with hx | hx
        · simp [hx]
        · simp [(ih hrec).2 x hx]

theorem tombAt_of_le {recs : List (Rec K V)} {i : Nat} (h : recs.length ≤ i) :
    tombAt recs i = recs := by
  induction recs generalizing i with
  | nil => rfl
  | cons r rs ih =>
    cases i with
    | zero => simp at h
    | succ n => simp [tombAt, ih (by simpa using h)]

/-! ### Invariant preservation, operation by operation -/

theorem inv_empty (t : Int) : Inv (emptySMap : SMap K V) t := by
  constructor <;> simp [emptySMap]

theorem Inv.tmAdv {s : SMap K V} {t u : Int} (h : Inv s t) (htu : t ≤ u) : Inv s u := by
  refine ⟨h.qlt, h.mlt, h.hlt, h.mkey, h.mnodup, ?_, ?_, h.qsorted, ?_, ?_⟩
  · intro p hp hdel; exact timeExpired_mono htu (h.mdel p hp hdel)
  · intro id hid hlive; exact h.qlive id hid (live_mono_back htu hlive)
  · intro r hr; exact le_trans (h.tbound r hr) htu
  · intro id hid hlive; exact h.liveq id hid (live_mono_back htu hlive)

theorem inv_insert_without_lock {s : SMap K V} {t : Int} (h : Inv s t)
    {k : K} {r : Rec K V} (hk : r.key = k) (hdel : r.is_delete = false)
    (hit : r.insert_time = t) : Inv (insert_without_lock k r s).snd t := by
  by_cases hl : (lookup s.data_map k).isSome
  · simpa [insert_without_lock, hl] using h
  · have hnone : lookup s.data_map k = none := by
      cases hc : lookup s.data_map k
      · rfl
      · rw [hc] at hl; simp at hl
    have hstate : (insert_without_lock k r s).snd =
        { recs := s.recs ++ [r], data_map := s.data_map ++ [(k, s.recs.length)],
          min_expire_heap := s.min_expire_heap ++ [s.recs.length],
          queue := s.queue ++ [s.recs.length] } := by
      simp [insert_without_lock, hnone, mapInsert_of_lookup_none _ hnone]
    rw [hstate]
    refine ⟨?_, ?_, ?_, ?_, ?_, ?_, ?_, ?_, ?_, ?_⟩
    · intro id hid
      rcases List.mem_append.mp hid with hid | hid
      · have := h.qlt id hid; simp only [List.length_append]; omega
      · simp only [List.mem_singleton] at hid; subst hid; simp
    · intro p hp
      rcases List.mem_append.mp hp with hp | hp
      · have := h.mlt p hp; simp only [List.length_append]; omega
      · simp only [List.mem_singleton] at hp; subst hp; simp
    · intro id hid
      rcases List.mem_append.mp hid with hid | hid
      · have := h.hlt id hid; simp only [List.length_append]; omega
      · simp only [List.mem_singleton] at hid; subst hid; simp
    · intro p hp
      rcases List.mem_append.mp hp with hp | hp
      · rw [recAt_append_lt s.recs r (h.mlt p hp)]
        exact h.mkey p hp
      · simp only [List.mem_singleton] at hp; subst hp
        simpa [recAt_append_len] using hk
    · rw [List.map_append]
      rw [List.nodup_append]
      refine ⟨h.mnodup, by simp, ?_⟩
      intro a ha hb
      simp only [List.map_cons, List.map_nil, List.mem_singleton] at hb
      subst hb
      obtain ⟨p, hp, hpa⟩ := List.mem_map.mp ha
      exact lookup_eq_none_iff.mp hnone p hp hpa
    · intro p hp hdc
      rcases List.mem_append.mp hp with hp | hp
      · rw [recAt_append_lt s.recs r (h.mlt p hp)] at hdc ⊢
        exact h.mdel p hp hdc
      · simp only [List.mem_singleton] at hp; subst hp
        rw [show ((k, s.recs.length) : K × Nat).2 = s.recs.length from rfl,
          recAt_append_len] at hdc
        rw [hdel] at hdc
        exact absurd hdc (by simp)
    · intro id hid hlive
      rcases List.mem_append.mp hid with hid | hid
      · have hlt := h.qlt id hid
        have hlive' : is_expire t (recAt s.recs id) = false := by
          rwa [recAt_append_lt s.recs r hlt] at hlive
        have hql := h.qlive id hid hlive'
        have hkne : (recAt s.recs id).key ≠ k := by
          intro he; rw [he, hnone] at hql; exact Option.noConfusion hql
        show lookup (s.data_map ++ [(k, s.recs.length)])
          (recAt (s.recs ++ [r]) id).key = some id
        rw [recAt_append_lt s.recs r hlt, ← mapInsert_of_lookup_none _ hnone,
          lookup_mapInsert_ne s.data_map s.recs.length hkne]
        exact hql
      · simp only [List.mem_singleton] at hid; subst hid
        show lookup (s.data_map ++ [(k, s.recs.length)])
          (recAt (s.recs ++ [r]) s.recs.length).key = some s.recs.length
        rw [recAt_append_len, hk, ← mapInsert_of_lookup_none _ hnone]
        exact lookup_mapInsert_self s.data_map k s.recs.length
    · rw [List.pairwise_append]
      refine ⟨List.Pairwise.imp_of_mem ?_ h.qsorted, by simp, ?_⟩
      · intro a b ha hb hab
        rw [recAt_append_lt s.recs r (h.qlt a ha), recAt_append_lt s.recs r (h.qlt b hb)]
        exact hab
      · intro a ha b hb
        simp only [List.mem_singleton] at hb; subst hb
        rw [recAt_append_lt s.recs r (h.qlt a ha), recAt_append_len, hit]
        exact h.tbound _ (recAt_mem s.recs (h.qlt a ha))
    · intro r' hr'
      rcases List.mem_append.mp hr' with hr' | hr'
      · exact h.tbound r' hr'
      · simp only [List.mem_singleton] at hr'; subst hr'
        exact le_of_eq hit
    · intro id hidlt hlive
      rw [List.length_append, List.length_singleton] at hidlt
      by_cases hlt : id < s.recs.length
      · rw [recAt_append_lt s.recs r hlt] at hlive
        exact List.mem_append.mpr (Or.inl (h.liveq id hlt hlive))
      · have hide : id = s.recs.length := by omega
        subst hide
        exact List.mem_append.mpr (Or.inr (by simp))

theorem inv_erase_without_lock {s : SMap K V} {t : Int} (h : Inv s t) (k : K) :
    Inv (erase_without_lock k s).snd t := by
  cases hl : lookup s.data_map k with
  | none => simpa [erase_without_lock, hl] using h
  | some j =>
    have hmem := lookup_mem hl
    have hjlt : j < s.recs.length := h.mlt (k, j) hmem
    have hjkey : (recAt s.recs j).key = k := h.mkey (k, j) hmem
    have hstate : (erase_without_lock k s).snd =
        { s with recs := tombAt s.recs j, data_map := eraseEntry k s.data_map } := by
      simp [erase_without_lock, hl]
    rw [hstate]
    have hfields := fun j' => recAt_tombAt_fields s.recs j j'
    refine ⟨?_, ?_, ?_, ?_, ?_, ?_, ?_, ?_, ?_, ?_⟩
    · intro id hid; rw [tombAt_length]; exact h.qlt id hid
    · intro p hp; rw [tombAt_length]
      exact h.mlt p ((eraseEntry_sublist k s.data_map).subset hp)
    · intro id hid; rw [tombAt_length]; exact h.hlt id hid
    · intro p hp
      rw [(hfields p.2).1]
      exact h.mkey p ((eraseEntry_sublist k s.data_map).subset hp)
    · exact nodup_keys_sublist (eraseEntry_sublist k s.data_map) h.mnodup
    · intro p hp hdc
      have hpm := (eraseEntry_sublist k s.data_map).subset hp
      have hpk : p.1 ≠ k :=
        lookup_eq_none_iff.mp (lookup_eraseEntry_self h.mnodup) p hp
      have hpj : p.2 ≠ j := by
        intro he
        exact hpk (by rw [← h.mkey p hpm, he, hjkey])
      rw [recAt_tombAt_ne s.recs hpj] at hdc ⊢
      exact h.mdel p hpm hdc
    · intro id hid hlive
      have hidj : id ≠ j := by
        intro he; subst he
        rw [recAt_tombAt_self s.recs hjlt] at hlive
        simp [is_expire] at hlive
      rw [recAt_tombAt_ne s.recs hidj] at hlive ⊢
      have hql := h.qlive id hid hlive
      have hkne : (recAt s.recs id).key ≠ k := by
        intro he
        rw [he, hl] at hql
        exact hidj (Option.some_injective _ hql).symm
      rw [lookup_eraseEntry_ne _ hkne]
      exact hql
    · refine List.Pairwise.imp_of_mem ?_ h.qsorted
      intro a b ha hb hab
      rw [(hfields a).2.1, (hfields b).2.1]
      exact hab
    · intro r' hr'
      rcases mem_tombAt s.recs j hr' with hr' | ⟨r₀, hr₀, he⟩
      · exact h.tbound r' hr'
      · rw [he]; exact h.tbound r₀ hr₀
    · intro id hidlt hlive
      rw [tombAt_length] at hidlt
      have hidj : id ≠ j := by
        intro he; subst he
        rw [recAt_tombAt_self s.recs hjlt] at hlive
        simp [is_expire] at hlive
      rw [recAt_tombAt_ne s.recs hidj] at hlive
      exact h.liveq id hidlt hlive

theorem inv_tombAt_unmapped {s : SMap K V} {t : Int} (h : Inv s t) (i : Nat)
    (hun : lookup s.data_map ((recAt s.recs i).key) = none) :
    Inv { s with recs := tombAt s.recs i } t := by
  have hfields := fun j' => recAt_tombAt_fields s.recs i j'
  refine ⟨?_, ?_, ?_, ?_, h.mnodup, ?_, ?_, ?_, ?_, ?_⟩
  · intro id hid; rw [tombAt_length]; exact h.qlt id hid
  · intro p hp; rw [tombAt_length]; exact h.mlt p hp
  · intro id hid; rw [tombAt_length]; exact h.hlt id hid
  · intro p hp; rw [(hfields p.2).1]; exact h.mkey p hp
  · intro p hp hdc
    have hpi : p.2 ≠ i := by
      intro he
      have h1 := h.mkey p hp
      rw [he] at h1
      exact lookup_eq_none_iff.mp hun p hp h1.symm
    rw [recAt_tombAt_ne s.recs hpi] at hdc ⊢
    exact h.mdel p hp hdc
  · intro id hid hlive
    by_cases hii : id = i
    · subst hii
      by_cases hlt : id < s.recs.length
      · rw [recAt_tombAt_self s.recs hlt] at hlive
        simp [is_expire] at hlive
      · rw [tombAt_of_le (by omega)] at hlive ⊢
        exact h.qlive id hid hlive
    · rw [recAt_tombAt_ne s.recs hii] at hlive ⊢
      exact h.qlive id hid hlive
  · refine List.Pairwise.imp_of_mem ?_ h.qsorted
    intro a b ha hb hab
    rw [(hfields a).2.1, (hfields b).2.1]
    exact hab
  · intro r' hr'
    rcases mem_tombAt s.recs i hr' with hr' | ⟨r₀, hr₀, he⟩
    · exact h.tbound r' hr'
    · rw [he]; exact h.tbound r₀ hr₀
  · intro id hidlt hlive
    rw [tombAt_length] at hidlt
    by_cases hii : id = i
    · subst hii
      by_cases hlt : id < s.recs.length
      · rw [recAt_tombAt_self s.recs hlt] at hlive
        simp [is_expire] at hlive
      · omega
    · rw [recAt_tombAt_ne s.recs hii] at hlive
      exact h.liveq id hidlt hlive

theorem inv_tombAndErase {s : SMap K V} {t : Int} (h : Inv s t) (i : Nat) :
    Inv (tombAndErase s i).snd t := by
  have hkey1 : (recAt (tombAt s.recs i) i).key = (recAt s.recs i).key :=
    (recAt_tombAt_fields s.recs i i).1
  cases hl : lookup s.data_map ((recAt s.recs i).key) with
  | none =>
    have hstate : (tombAndErase s i).snd = { s with recs := tombAt s.recs i } := by
      simp [tombAndErase, erase_without_lock, hkey1, hl]
    rw [hstate]
    exact inv_tombAt_unmapped h i hl
  | some j =>
    have hstate : (tombAndErase s i).snd =
        { s with recs := tombAt (tombAt s.recs i) j,
                 data_map := eraseEntry ((recAt s.recs i).key) s.data_map } := by
      simp [tombAndErase, erase_without_lock, hkey1, hl]
    have h1 : Inv (erase_without_lock ((recAt s.recs i).key) s).snd t :=
      inv_erase_without_lock h _
    have hes : (erase_without_lock ((recAt s.recs i).key) s).snd =
        { s with recs := tombAt s.recs j,
                 data_map := eraseEntry ((recAt s.recs i).key) s.data_map } := by
      simp [erase_without_lock, hl]
    rw [hes] at h1
    have hun : lookup (eraseEntry ((recAt s.recs i).key) s.data_map)
        ((recAt (tombAt s.recs j) i).key) = none := by
      rw [(recAt_tombAt_fields s.recs j i).1]
      exact lookup_eraseEntry_self h.mnodup
    have h2 := inv_tombAt_unmapped h1 i hun
    rw [hstate, tombAt_comm]
    exact h2

theorem inv_get_by_key {s : SMap K V} {t : Int} (h : Inv s t) (k : K) :
    Inv (get_by_key k t s).snd t := by
  cases hl : lookup s.data_map k with
  | none => simpa [get_by_key, hl] using h
  | some j =>
    by_cases hexp : is_expire t (recAt s.recs j)
    · have hstate : (get_by_key k t s).snd = { s with data_map := eraseEntry k s.data_map } := by
        simp [get_by_key, hl, hexp]
      rw [hstate]
      refine ⟨h.qlt, ?_, h.hlt, ?_, ?_, ?_, ?_, h.qsorted, h.tbound, h.liveq⟩
      · intro p hp; exact h.mlt p ((eraseEntry_sublist k s.data_map).subset hp)
      · intro p hp; exact h.mkey p ((eraseEntry_sublist k s.data_map).subset hp)
      · exact nodup_keys_sublist (eraseEntry_sublist k s.data_map) h.mnodup
      · intro p hp hdc
        exact h.mdel p ((eraseEntry_sublist k s.data_map).subset hp) hdc
      · intro id hid hlive
        have hql := h.qlive id hid hlive
        have hkne : (recAt s.recs id).key ≠ k := by
          intro he
          rw [he, hl] at hql
          have hij := Option.some_injective _ hql
          rw [hij] at hexp
          rw [hlive] at hexp
          exact absurd hexp (by simp)
        rw [lookup_eraseEntry_ne _ hkne]
        exact hql
    · have hstate : (get_by_key k t s).snd = s := by
        simp [get_by_key, hl, hexp]
      rw [hstate]; exact h

theorem inv_insert_op {s : SMap K V} {t : Int} (h : Inv s t) (k : K) (v : V) (interval : Int) :
    Inv (insert k v interval t s).snd t :=
  inv_insert_without_lock h rfl rfl rfl

theorem inv_update {s : SMap K V} {t : Int} (h : Inv s t) (k : K) (v : V) (interval : Int) :
    Inv (update_value k v interval t s).snd t := by
  cases hl : lookup s.data_map k with
  | none => simpa [update_value, hl] using h
  | some oldId =>
    have hkey : (recAt s.recs oldId).key = k := h.mkey (k, oldId) (lookup_mem hl)
    have h1 : Inv (tombAndErase s oldId).snd t := inv_tombAndErase h oldId
    by_cases hi0 : interval = 0
    · by_cases him : (recAt s.recs oldId).expire_time_interval = -1
      · have hstate : (update_value k v interval t s).snd =
            (insert_without_lock k (mkKV k v (-1) t) (tombAndErase s oldId).snd).snd := by
          simp [update_value, hl, hi0, him, tombAndErase, (recAt_tombAt_fields s.recs oldId oldId).1]
        rw [hstate]
        exact inv_insert_without_lock h1 rfl rfl rfl
      · have hstate : (update_value k v interval t s).snd =
            (insert_without_lock k
              (mkKV k v ((recAt s.recs oldId).expire_time_interval) t)
              (tombAndErase s oldId).snd).snd := by
          simp [update_value, hl, hi0, him, tombAndErase, (recAt_tombAt_fields s.recs oldId oldId).1]
        rw [hstate]
        exact inv_insert_without_lock h1 rfl rfl rfl
    · have hstate : (update_value k v interval t s).snd =
          (insert_without_lock k (mkKV k v interval t) (tombAndErase s oldId).snd).snd := by
        simp [update_value, hl, hi0, tombAndErase, (recAt_tombAt_fields s.recs oldId oldId).1]
      rw [hstate]
      exact inv_insert_without_lock h1 rfl rfl rfl

theorem mem_recAt_exists {recs : List (Rec K V)} {r : Rec K V} (h : r ∈ recs) :
    ∃ j, j < recs.length ∧ recAt recs j = r := by
  obtain ⟨j, hj, he⟩ := List.mem_iff_getElem.mp h
  refine ⟨j, hj, ?_⟩
  unfold recAt
  rw [List.getD_eq_getElem _ _ hj]
  exact he

theorem inv_eraseRangeLoop {t : Int} :
    ∀ (l : List Nat) (c : Nat) (s : SMap K V), Inv s t → Inv (eraseRangeLoop l c s).snd t := by
  intro l
  induction l with
  | nil => intro c s h; simpa [eraseRangeLoop] using h
  | cons id rest ih =>
    intro c s h
    simp only [eraseRangeLoop]
    exact ih _ _ (inv_tombAndErase h id)

theorem inv_erase_by_time_range {s : SMap K V} {t : Int} (h : Inv s t) (a b : Int) :
    Inv (erase_by_time_range a b s).snd t := by
  unfold erase_by_time_range
  by_cases hc : b < a
  · simpa [hc] using h
  · simpa [hc] using inv_eraseRangeLoop _ 0 s h

theorem inv_eraseOrderLoop {t : Int} {n : Int} :
    ∀ (l : List Nat) (c : Nat) (s : SMap K V), Inv s t →
      Inv (eraseOrderLoop n t l c s).snd t := by
  intro l
  induction l with
  | nil => intro c s h; simpa [eraseOrderLoop] using h
  | cons id rest ih =>
    intro c s h
    simp only [eraseOrderLoop]
    by_cases hexp : is_expire t (recAt s.recs id)
    · rw [if_pos hexp]; exact ih _ _ h
    · rw [if_neg hexp]
      by_cases hstop : n ≤ (((if (tombAndErase s id).fst then c + 1 else c) : Nat) : Int)
      · rw [if_pos hstop]; exact inv_tombAndErase h id
      · rw [if_neg hstop]; exact ih _ _ (inv_tombAndErase h id)

theorem inv_erase_by_order {s : SMap K V} {t : Int} (h : Inv s t) (n : Int) (asc : Bool) :
    Inv (erase_by_order n asc t s).snd t := by
  unfold erase_by_order
  exact inv_eraseOrderLoop _ 0 s h

theorem inv_tickGo {t : Int} :
    ∀ (fuel : Nat) (s : SMap K V), Inv s t → Inv (tickGo t fuel s) t := by
  intro fuel
  induction fuel with
  | zero => intro s h; simpa [tickGo] using h
  | succ f ih =>
    intro s h
    cases hx : heapExtract s.recs s.min_expire_heap with
    | none => simp only [tickGo, hx]; exact h
    | some p =>
      obtain ⟨id, rest⟩ := p
      simp only [tickGo, hx]
      by_cases hexp : is_expire t (recAt s.recs id)
      · rw [if_pos hexp]
        apply ih
        have hmem := heapExtract_mem hx
        have hidlt : id < s.recs.length := h.hlt id hmem.1
        have hfields := fun j' => recAt_tombAt_fields s.recs id j'
        refine ⟨?_, ?_, ?_, ?_, h.mnodup, ?_, ?_, ?_, ?_, ?_⟩
        · intro x hxq; rw [tombAt_length]; exact h.qlt x hxq
        · intro q hq; rw [tombAt_length]; exact h.mlt q hq
        · intro x hxh; rw [tombAt_length]; exact h.hlt x (hmem.2 x hxh)
        · intro q hq; rw [(hfields q.2).1]; exact h.mkey q hq
        · intro q hq hdc
          by_cases hqi : q.2 = id
          · rw [hqi] at hdc ⊢
            rw [timeExpired_iff_of_fields t (hfields id).2.2.2 (hfields id).2.2.1]
            rcases is_expire_true_elim hexp with hd | he
            · exact hqi ▸ h.mdel q hq (by rw [hqi]; exact hd)
            · exact he
          · rw [recAt_tombAt_ne s.recs hqi] at hdc ⊢
            exact h.mdel q hq hdc
        · intro x hxq hlive
          have hxi : x ≠ id := by
            intro he; subst he
            rw [recAt_tombAt_self s.recs hidlt] at hlive
            simp [is_expire] at hlive
          rw [recAt_tombAt_ne s.recs hxi] at hlive ⊢
          exact h.qlive x hxq hlive
        · refine List.Pairwise.imp_of_mem ?_ h.qsorted
          intro a b ha hb hab
          rw [(hfields a).2.1, (hfields b).2.1]
          exact hab
        · intro r' hr'
          rcases mem_tombAt s.recs id hr' with hr' | ⟨r₀, hr₀, he⟩
          · exact h.tbound r' hr'
          · rw [he]; exact h.tbound r₀ hr₀
        · intro x hxlt hlive
          rw [tombAt_length] at hxlt
          have hxi : x ≠ id := by
            intro he; subst he
            rw [recAt_tombAt_self s.recs hidlt] at hlive
            simp [is_expire] at hlive
          rw [recAt_tombAt_ne s.recs hxi] at hlive
          exact h.liveq x hxlt hlive
      · rw [if_neg hexp]; exact h

theorem inv_tick {s : SMap K V} {t : Int} (h : Inv s t) : Inv (tick t s) t :=
  inv_tickGo _ s h

theorem sweepHeapGo_spec {t : Int} :
    ∀ (fuel : Nat) (recs : List (Rec K V)) (heap : List Nat),
      Evolve t recs (sweepHeapGo t fuel recs heap).fst ∧
      ∀ x ∈ (sweepHeapGo t fuel recs heap).snd, x ∈ heap := by
  intro fuel
  induction fuel with
  | zero => intro recs heap; exact ⟨evolve_refl recs, by simp [sweepHeapGo]⟩
  | succ f ih =>
    intro recs heap
    cases hx : heapExtract recs heap with
    | none =>
      simp only [sweepHeapGo, hx]
      exact ⟨evolve_refl recs, by simp⟩
    | some p =>
      obtain ⟨id, rest⟩ := p
      simp only [sweepHeapGo, hx]
      have hmem := heapExtract_mem hx
      by_cases hexp : is_expire t (recAt recs id)
      · rw [if_pos hexp]
        refine ⟨evolve_trans (Evolve.tombAt_expired hexp) (ih (tombAt recs id) rest).1, ?_⟩
        intro x hx2
        exact hmem.2 x ((ih (tombAt recs id) rest).2 x hx2)
      · rw [if_neg hexp]
        refine ⟨(ih recs rest).1, ?_⟩
        intro x hx2
        rcases List.mem_cons.mp hx2 with hx2 | hx2
        · rw [hx2]; exact hmem.1
        · exact hmem.2 x ((ih recs rest).2 x hx2)

theorem sweepQueue_spec {t : Int} :
    ∀ (q : List Nat) (recs : List (Rec K V)),
      Evolve t recs (sweepQueue t recs q).fst ∧
      (sweepQueue t recs q).snd.Sublist q ∧
      (∀ id ∈ q, is_expire t (recAt (sweepQueue t recs q).fst id) = false →
        id ∈ (sweepQueue t recs q).snd) := by
  intro q
  induction q with
  | nil =>
    intro recs
    exact ⟨evolve_refl recs, by simp [sweepQueue], by simp⟩
  | cons id rest ih =>
    intro recs
    simp only [sweepQueue]
    by_cases hexp : is_expire t (recAt recs id)
    · rw [if_pos hexp]
      obtain ⟨E, hsub, hcomp⟩ := ih (tombAt recs id)
      refine ⟨evolve_trans (Evolve.tombAt_expired hexp) E, hsub.cons _, ?_⟩
      intro x hx hlive
      rcases List.mem_cons.mp hx with hx | hx
      · subst hx
        have hlive2 := E.live_back x hlive
        by_cases hlt : x < recs.length
        · rw [recAt_tombAt_self recs hlt] at hlive2
          simp [is_expire] at hlive2
        · rw [tombAt_of_le (by omega)] at hlive2
          rw [hexp] at hlive2
          exact absurd hlive2 (by simp)
      · exact hcomp x hx hlive
    · rw [if_neg hexp]
      obtain ⟨E, hsub, hcomp⟩ := ih recs
      refine ⟨E, hsub.cons₂ _, ?_⟩
      intro x hx hlive
      rcases List.mem_cons.mp hx with hx | hx
      · rw [hx]; exact List.mem_cons_self _ _
      · exact List.mem_cons_of_mem _ (hcomp x hx hlive)

theorem sweepMap_spec {t : Int} :
    ∀ (m : List (K × Nat)) (recs : List (Rec K V)),
      (m.map Prod.snd).Nodup →
      Evolve t recs (sweepMap t recs m).fst ∧
      (sweepMap t recs m).snd.Sublist m ∧
      (∀ p ∈ (sweepMap t recs m).snd,
        is_expire t (recAt (sweepMap t recs m).fst p.2) = false) ∧
      (∀ p ∈ m, is_expire t (recAt recs p.2) = false → p ∈ (sweepMap t recs m).snd) := by
  intro m
  induction m with
  | nil =>
    intro recs hnd
    exact ⟨evolve_refl recs, by simp [sweepMap], by simp [sweepMap], by simp⟩
  | cons p rest ih =>
    intro recs hnd
    obtain ⟨k, id⟩ := p
    rw [List.map_cons, List.nodup_cons] at hnd
    simp only [sweepMap]
    by_cases hexp : is_expire t (recAt recs id)
    · rw [if_pos hexp]
      obtain ⟨E, hsub, hlive', hcomp⟩ := ih (tombAt recs id) hnd.2
      refine ⟨evolve_trans (Evolve.tombAt_expired hexp) E, hsub.cons _, hlive', ?_⟩
      intro q hq hqlive
      rcases List.mem_cons.mp hq with hq | hq
      · rw [hq] at hqlive
        rw [hqlive] at hexp
        exact absurd hexp (by simp)
      · have hqne : q.2 ≠ id := by
          intro he
          exact hnd.1 (he ▸ List.mem_map.mpr ⟨q, hq, rfl⟩)
        apply hcomp q hq
        rw [recAt_tombAt_ne recs hqne]
        exact hqlive
    · rw [if_neg hexp]
      have hexp2 : is_expire t (recAt recs id) = false := by
        simpa using hexp
      obtain ⟨E, hsub, hlive', hcomp⟩ := ih recs hnd.2
      refine ⟨E, hsub.cons₂ _, ?_, ?_⟩
      · intro q hq
        rcases List.mem_cons.mp hq with hq | hq
        · rw [hq]
          have hd : (recAt (sweepMap t recs rest).fst id).is_delete = false := by
            by_contra hc
            rcases E.newDel id (by simpa using hc) with hdp | hep
            · rw [is_expire_of_delete hdp t] at hexp2
              exact absurd hexp2 (by simp)
            · rw [hep] at hexp2
              exact absurd hexp2 (by simp)
          have hdp : (recAt recs id).is_delete = false := not_delete_of_live hexp2
          rw [is_expire_eq_of_fields t (by rw [hd, hdp]) (E.intervalEq id) (E.etimeEq id)]
          exact hexp2
        · exact hlive' q hq
      · intro q hq hqlive
        rcases List.mem_cons.mp hq with hq | hq
        · rw [hq]; exact List.mem_cons_self _ _
        · exact List.mem_cons_of_mem _ (hcomp q hq hqlive)

theorem nodup_map_ids {s : SMap K V} {t : Int} (h : Inv s t) :
    (s.data_map.map Prod.snd).Nodup := by
  have hpw : s.data_map.Pairwise (fun p q => p.1 ≠ q.1) := List.pairwise_map.mp h.mnodup
  have hpw2 : s.data_map.Pairwise (fun p q => p.2 ≠ q.2) := by
    refine List.Pairwise.imp_of_mem ?_ hpw
    intro a b ha hb hne he
    exact hne (by rw [← h.mkey a ha, ← h.mkey b hb, he])
  exact List.pairwise_map.mpr hpw2

theorem inv_assemble {s : SMap K V} {t : Int} (h : Inv s t)
    {recs1 : List (Rec K V)} {heap' : List Nat}
    {recs2 : List (Rec K V)} {queue' : List Nat}
    {recs3 : List (Rec K V)} {map' : List (K × Nat)}
    (E1 : Evolve t s.recs recs1) (hheap : ∀ x ∈ heap', x ∈ s.min_expire_heap)
    (E2 : Evolve t recs1 recs2) (hqsub : queue'.Sublist s.queue)
    (hqcomp : ∀ id ∈ s.queue, is_expire t (recAt recs2 id) = false → id ∈ queue')
    (E3 : Evolve t recs2 recs3) (hmsub : map'.Sublist s.data_map)
    (hmlive : ∀ p ∈ map', is_expire t (recAt recs3 p.2) = false)
    (hmcomp : ∀ p ∈ s.data_map, is_expire t (recAt recs2 p.2) = false → p ∈ map') :
    Inv (⟨recs3, map', heap', queue'⟩ : SMap K V) t := by
  refine ⟨?_, ?_, ?_, ?_, ?_, ?_, ?_, ?_, ?_, ?_⟩
  · intro id hid
    show id < recs3.length
    rw [E3.len, E2.len, E1.len]
    exact h.qlt id (hqsub.subset hid)
  · intro p hp
    show p.2 < recs3.length
    rw [E3.len, E2.len, E1.len]
    exact h.mlt p (hmsub.subset hp)
  · intro id hid
    show id < recs3.length
    rw [E3.len, E2.len, E1.len]
    exact h.hlt id (hheap id hid)
  · intro p hp
    show (recAt recs3 p.2).key = p.1
    rw [E3.keyEq p.2, E2.keyEq p.2, E1.keyEq p.2]
    exact h.mkey p (hmsub.subset hp)
  · exact nodup_keys_sublist hmsub h.mnodup
  · intro p hp hdc
    replace hdc : (recAt recs3 p.2).is_delete = true := hdc
    have hlv := hmlive p hp
    rw [is_expire_of_delete hdc t] at hlv
    exact absurd hlv (by simp)
  · intro id hid hlive
    replace hid : id ∈ queue' := hid
    replace hlive : is_expire t (recAt recs3 id) = false := hlive
    have hlive2 : is_expire t (recAt s.recs id) = false :=
      E1.live_back id (E2.live_back id (E3.live_back id hlive))
    have hql := h.qlive id (hqsub.subset hid) hlive2
    have hmem := lookup_mem hql
    have hkeep : ((recAt s.recs id).key, id) ∈ map' :=
      hmcomp _ hmem (E3.live_back id hlive)
    show lookup map' (recAt recs3 id).key = some id
    rw [E3.keyEq id, E2.keyEq id, E1.keyEq id]
    exact lookup_of_mem_nodup (nodup_keys_sublist hmsub h.mnodup) hkeep
  · show queue'.Pairwise (fun a b => (recAt recs3 a).insert_time ≤ (recAt recs3 b).insert_time)
    refine List.Pairwise.imp_of_mem ?_ (h.qsorted.sublist hqsub)
    intro a b ha hb hab
    rw [E3.itimeEq a, E2.itimeEq a, E1.itimeEq a, E3.itimeEq b, E2.itimeEq b, E1.itimeEq b]
    exact hab
  · intro r' hr'
    replace hr' : r' ∈ recs3 := hr'
    obtain ⟨j, hjlt, he⟩ := mem_recAt_exists hr'
    rw [← he]
    show (recAt recs3 j).insert_time ≤ t
    rw [E3.itimeEq j, E2.itimeEq j, E1.itimeEq j]
    have hjlt2 : j < s.recs.length := by
      rw [E3.len, E2.len, E1.len] at hjlt; exact hjlt
    exact h.tbound _ (recAt_mem s.recs hjlt2)
  · intro id hlt hlive
    replace hlt : id < recs3.length := hlt
    replace hlive : is_expire t (recAt recs3 id) = false := hlive
    rw [E3.len, E2.len, E1.len] at hlt
    have hlive2 : is_expire t (recAt s.recs id) = false :=
      E1.live_back id (E2.live_back id (E3.live_back id hlive))
    have hq := h.liveq id hlt hlive2
    show id ∈ queue'
    exact hqcomp id hq (E3.live_back id hlive)

theorem inv_tick_all {s : SMap K V} {t : Int} (h : Inv s t) : Inv (tick_all t s) t := by
  obtain ⟨E1, hheap⟩ :=
    sweepHeapGo_spec (t := t) s.min_expire_heap.length s.recs s.min_expire_heap
  obtain ⟨E2, hqsub, hqcomp⟩ :=
    sweepQueue_spec (t := t) s.queue
      (sweepHeapGo t s.min_expire_heap.length s.recs s.min_expire_heap).fst
  obtain ⟨E3, hmsub, hmlive, hmcomp⟩ :=
    sweepMap_spec (t := t) s.data_map
      (sweepQueue t (sweepHeapGo t s.min_expire_heap.length s.recs s.min_expire_heap).fst
        s.queue).fst (nodup_map_ids h)
  exact inv_assemble h E1 hheap E2 hqsub hqcomp E3 hmsub hmlive hmcomp

/-- Every reachable state satisfies the store invariant. -/
theorem reach_inv {s : SMap K V} {t : Int} (h : Reach s t) : Inv s t := by
  induction h with
  | init => exact inv_empty 0
  | tmAdv h htu ih => exact ih.tmAdv htu
  | rInsert k v interval h ih => exact inv_insert_op ih k v interval
  | rEraseKey k h ih => exact inv_erase_without_lock ih k
  | rEraseRange a b h ih => exact inv_erase_by_time_range ih a b
  | rEraseOrder n asc h ih => exact inv_erase_by_order ih n asc
  | rUpdate k v interval h ih => exact inv_update ih k v interval
  | rGet k h ih => exact inv_get_by_key ih k
  | rTick h ih => exact inv_tick ih
  | rTickAll h ih => exact inv_tick_all ih

/-! ### Evolution under the erase loops (tombstones accumulate, maps shrink) -/

/-- Arena evolution under an erase loop: lengths and immutable fields are
preserved and tombstones only accumulate (unlike `Evolve`, freshly tombstoned
records need not have been expired: erasure tombstones live records). -/
structure Evo0 (recs recs' : List (Rec K V)) : Prop where
  len : recs'.length = recs.length
  keyEq : ∀ j, (recAt recs' j).key = (recAt recs j).key
  itimeEq : ∀ j, (recAt recs' j).insert_time = (recAt recs j).insert_time
  etimeEq : ∀ j, (recAt recs' j).expire_time = (recAt recs j).expire_time
  intervalEq : ∀ j, (recAt recs' j).expire_time_interval = (recAt recs j).expire_time_interval
  delMono : ∀ j, (recAt recs j).is_delete = true → (recAt recs' j).is_delete = true

theorem evo0_refl (recs : List (Rec K V)) : Evo0 recs recs :=
  ⟨Eq.refl _, fun _ => Eq.refl _, fun _ => Eq.refl _, fun _ => Eq.refl _, fun _ => Eq.refl _,
    fun _ h => h⟩

theorem evo0_trans {r1 r2 r3 : List (Rec K V)} (E1 : Evo0 r1 r2) (E2 : Evo0 r2 r3) :
    Evo0 r1 r3 :=
  ⟨E2.len.trans E1.len, fun j => (E2.keyEq j).trans (E1.keyEq j),
    fun j => (E2.itimeEq j).trans (E1.itimeEq j),
    fun j => (E2.etimeEq j).trans (E1.etimeEq j),
    fun j => (E2.intervalEq j).trans (E1.intervalEq j),
    fun j h => E2.delMono j (E1.delMono j h)⟩

theorem evo0_tombAt (recs : List (Rec K V)) (i : Nat) : Evo0 recs (tombAt recs i) :=
  ⟨tombAt_length recs i, fun j => (recAt_tombAt_fields recs i j).1,
    fun j => (recAt_tombAt_fields recs i j).2.1,
    fun j => (recAt_tombAt_fields recs i j).2.2.1,
    fun j => (recAt_tombAt_fields recs i j).2.2.2,
    fun j h => is_delete_tombAt_mono recs h⟩

theorem tombAndErase_none {s : SMap K V} {i : Nat}
    (hl : lookup s.data_map ((recAt s.recs i).key) = none) :
    tombAndErase s i = (false, { s with recs := tombAt s.recs i }) := by
  simp [tombAndErase, erase_without_lock, (recAt_tombAt_fields s.recs i i).1, hl]

theorem tombAndErase_some {s : SMap K V} {i j : Nat}
    (hl : lookup s.data_map ((recAt s.recs i).key) = some j) :
    tombAndErase s i =
      Prod.mk true { s with recs := tombAt (tombAt s.recs i) j,
                            data_map := eraseEntry ((recAt s.recs i).key) s.data_map } := by
  simp [tombAndErase, erase_without_lock, (recAt_tombAt_fields s.recs i i).1, hl]

theorem tombAndErase_evo (s : SMap K V) (i : Nat) :
    Evo0 s.recs (tombAndErase s i).snd.recs ∧
    (tombAndErase s i).snd.data_map.Sublist s.data_map ∧
    (tombAndErase s i).snd.queue = s.queue ∧
    (tombAndErase s i).snd.min_expire_heap = s.min_expire_heap := by
  cases hl : lookup s.data_map ((recAt s.recs i).key) with
  | none =>
    rw [tombAndErase_none hl]
    exact ⟨evo0_tombAt s.recs i, List.Sublist.refl _, rfl, rfl⟩
  | some j =>
    rw [tombAndErase_some hl]
    exact ⟨evo0_trans (evo0_tombAt s.recs i) (evo0_tombAt _ j),
      eraseEntry_sublist _ _, rfl, rfl⟩

theorem eraseRangeLoop_evo :
    ∀ (l : List Nat) (c : Nat) (s : SMap K V),
      Evo0 s.recs (eraseRangeLoop l c s).snd.recs ∧
      (eraseRangeLoop l c s).snd.data_map.Sublist s.data_map ∧
      (eraseRangeLoop l c s).snd.queue = s.queue := by
  intro l
  induction l with
  | nil => intro c s; exact ⟨evo0_refl s.recs, List.Sublist.refl _, rfl⟩
  | cons id rest ih =>
    intro c s
    simp only [eraseRangeLoop]
    obtain ⟨E1, hsub1, hq1, _⟩ := tombAndErase_evo s id
    obtain ⟨E2, hsub2, hq2⟩ := ih (if (tombAndErase s id).fst then c + 1 else c)
      (tombAndErase s id).snd
    exact ⟨evo0_trans E1 E2, hsub2.trans hsub1, hq2.trans hq1⟩

theorem eraseRangeLoop_count_le :
    ∀ (l : List Nat) (c : Nat) (s : SMap K V), c ≤ (eraseRangeLoop l c s).fst := by
  intro l
  induction l with
  | nil => intro c s; exact Nat.le_refl c
  | cons id rest ih =>
    intro c s
    simp only [eraseRangeLoop]
    refine le_trans ?_ (ih _ _)
    by_cases hb : (tombAndErase s id).fst
    · rw [if_pos hb]; omega
    · rw [if_neg hb]

theorem tombAndErase_tombstones {s : SMap K V} {i : Nat} (hlt : i < s.recs.length) :
    (recAt (tombAndErase s i).snd.recs i).is_delete = true := by
  cases hl : lookup s.data_map ((recAt s.recs i).key) with
  | none =>
    rw [tombAndErase_none hl]
    show (recAt (tombAt s.recs i) i).is_delete = true
    rw [recAt_tombAt_self s.recs hlt]
  | some j =>
    rw [tombAndErase_some hl]
    show (recAt (tombAt (tombAt s.recs i) j) i).is_delete = true
    apply is_delete_tombAt_mono
    rw [recAt_tombAt_self s.recs hlt]

theorem eraseRangeLoop_tombstones :
    ∀ (l : List Nat) (c : Nat) (s : SMap K V), (∀ id ∈ l, id < s.recs.length) →
      ∀ id ∈ l, (recAt (eraseRangeLoop l c s).snd.recs id).is_delete = true := by
  intro l
  induction l with
  | nil => intro c s _ id hid; simp at hid
  | cons id0 rest ih =>
    intro c s hlt id hid
    simp only [eraseRangeLoop]
    obtain ⟨E1, _, _, _⟩ := tombAndErase_evo s id0
    obtain ⟨E2, _, _⟩ := eraseRangeLoop_evo rest
      (if (tombAndErase s id0).fst then c + 1 else c) (tombAndErase s id0).snd
    rcases List.mem_cons.mp hid with hid | hid
    · subst hid
      exact E2.delMono id (tombAndErase_tombstones (hlt id (by simp)))
    · exact ih _ _ (fun x hx => by rw [E1.len]; exact hlt x (List.mem_cons_of_mem _ hx)) id hid

theorem eraseRangeLoop_keys_gone :
    ∀ (l : List Nat) (c : Nat) (s : SMap K V), (s.data_map.map Prod.fst).Nodup →
      ∀ id ∈ l, lookup (eraseRangeLoop l c s).snd.data_map ((recAt s.recs id).key) = none := by
  intro l
  induction l with
  | nil => intro c s _ id hid; simp at hid
  | cons id0 rest ih =>
    intro c s hnd id hid
    simp only [eraseRangeLoop]
    obtain ⟨E1, hsub1, _, _⟩ := tombAndErase_evo s id0
    obtain ⟨E2, hsub2, _⟩ := eraseRangeLoop_evo rest
      (if (tombAndErase s id0).fst then c + 1 else c) (tombAndErase s id0).snd
    rcases List.mem_cons.mp hid with hid | hid
    · subst hid
      have hstep : lookup (tombAndErase s id).snd.data_map ((recAt s.recs id).key) = none := by
        cases hl : lookup s.data_map ((recAt s.recs id).key) with
        | none => rw [tombAndErase_none hl]; exact hl
        | some j => rw [tombAndErase_some hl]; exact lookup_eraseEntry_self hnd
      exact lookup_none_of_sublist hsub2 hstep
    · have hnd1 : ((tombAndErase s id0).snd.data_map.map Prod.fst).Nodup :=
        nodup_keys_sublist hsub1 hnd
      have hres := ih (if (tombAndErase s id0).fst then c + 1 else c)
        (tombAndErase s id0).snd hnd1 id hid
      rw [E1.keyEq id] at hres
      exact hres

theorem eraseRangeLoop_count_eq :
    ∀ (l : List Nat) (c : Nat) (s : SMap K V),
      (eraseRangeLoop l c s).fst + (eraseRangeLoop l c s).snd.data_map.length =
        c + s.data_map.length := by
  intro l
  induction l with
  | nil => intro c s; simp [eraseRangeLoop]
  | cons id0 rest ih =>
    intro c s
    simp only [eraseRangeLoop]
    cases hl : lookup s.data_map ((recAt s.recs id0).key) with
    | none =>
      simp only [tombAndErase_none hl, Bool.false_eq_true, if_false]
      exact ih c _
    | some j =>
      have hstep := tombAndErase_some hl
      have hfst : (tombAndErase s id0).fst = true := by rw [hstep]
      have hdm : (tombAndErase s id0).snd.data_map
          = eraseEntry ((recAt s.recs id0).key) s.data_map := by rw [hstep]
      have hres := ih (c + 1) (tombAndErase s id0).snd
      rw [hdm] at hres
      have hlen := length_eraseEntry hl
      rw [hfst, if_pos rfl]
      omega

theorem eraseRangeLoop_frame :
    ∀ (l : List Nat) (c : Nat) (s : SMap K V), (s.data_map.map Prod.fst).Nodup →
      ∀ j, (recAt (eraseRangeLoop l c s).snd.recs j).is_delete = true →
        (recAt s.recs j).is_delete = true ∨ j ∈ l ∨
          ∃ i ∈ l, lookup s.data_map ((recAt s.recs i).key) = some j := by
  intro l
  induction l with
  | nil => intro c s _ j hj; exact Or.inl (by simpa [eraseRangeLoop] using hj)
  | cons id0 rest ih =>
    intro c s hnd j hj
    simp only [eraseRangeLoop] at hj
    obtain ⟨E1, hsub1, _, _⟩ := tombAndErase_evo s id0
    have hnd1 := nodup_keys_sublist hsub1 hnd
    rcases ih (if (tombAndErase s id0).fst then c + 1 else c) (tombAndErase s id0).snd
        hnd1 j hj with hdel1 | hmem | ⟨i, hi, hli⟩
    · cases hl : lookup s.data_map ((recAt s.recs id0).key) with
      | none =>
        have hrecs : (tombAndErase s id0).snd.recs = tombAt s.recs id0 := by
          rw [tombAndErase_none hl]
        rw [hrecs] at hdel1
        rcases is_delete_tombAt_cases s.recs hdel1 with hd | he
        · exact Or.inl hd
        · exact Or.inr (Or.inl (by rw [he]; simp))
      | some j2 =>
        have hrecs : (tombAndErase s id0).snd.recs = tombAt (tombAt s.recs id0) j2 := by
          rw [tombAndErase_some hl]
        rw [hrecs] at hdel1
        rcases is_delete_tombAt_cases _ hdel1 with hd | he
        · rcases is_delete_tombAt_cases s.recs hd with hd2 | he2
          · exact Or.inl hd2
          · exact Or.inr (Or.inl (by rw [he2]; simp))
        · refine Or.inr (Or.inr ⟨id0, by simp, ?_⟩)
          rw [he]
          exact hl
    · exact Or.inr (Or.inl (List.mem_cons_of_mem _ hmem))
    · rw [E1.keyEq i] at hli
      cases hl : lookup s.data_map ((recAt s.recs id0).key) with
      | none =>
        have hdm : (tombAndErase s id0).snd.data_map = s.data_map := by
          rw [tombAndErase_none hl]
        rw [hdm] at hli
        exact Or.inr (Or.inr ⟨i, List.mem_cons_of_mem _ hi, hli⟩)
      | some j2 =>
        have hdm : (tombAndErase s id0).snd.data_map
            = eraseEntry ((recAt s.recs id0).key) s.data_map := by
          rw [tombAndErase_some hl]
        rw [hdm] at hli
        by_cases hk : (recAt s.recs i).key = (recAt s.recs id0).key
        · rw [hk, lookup_eraseEntry_self hnd] at hli
          exact Option.noConfusion hli
        · rw [lookup_eraseEntry_ne _ hk] at hli
          exact Or.inr (Or.inr ⟨i, List.mem_cons_of_mem _ hi, hli⟩)

theorem eraseRangeLoop_hits_key :
    ∀ (l : List Nat) (c : Nat) (s : SMap K V) (k : K) (cid : Nat),
      (s.data_map.map Prod.fst).Nodup → cid < s.recs.length →
      (∃ i ∈ l, (recAt s.recs i).key = k) → lookup s.data_map k = some cid →
      (recAt (eraseRangeLoop l c s).snd.recs cid).is_delete = true ∧
      lookup (eraseRangeLoop l c s).snd.data_map k = none ∧
      c + 1 ≤ (eraseRangeLoop l c s).fst := by
  intro l
  induction l with
  | nil => intro c s k cid _ _ hex _; simp at hex
  | cons id0 rest ih =>
    intro c s k cid hnd hcltlen hex hcur
    simp only [eraseRangeLoop]
    obtain ⟨E1, hsub1, _, _⟩ := tombAndErase_evo s id0
    obtain ⟨E2, hsub2, _⟩ := eraseRangeLoop_evo rest
      (if (tombAndErase s id0).fst then c + 1 else c) (tombAndErase s id0).snd
    by_cases hk0 : (recAt s.recs id0).key = k
    · have hl : lookup s.data_map ((recAt s.recs id0).key) = some cid := by
        rw [hk0]; exact hcur
      have hstep := tombAndErase_some hl
      have hfst : (tombAndErase s id0).fst = true := by rw [hstep]
      refine ⟨?_, ?_, ?_⟩
      · apply E2.delMono
        rw [hstep]
        show (recAt (tombAt (tombAt s.recs id0) cid) cid).is_delete = true
        rw [recAt_tombAt_self _ (by rw [tombAt_length]; exact hcltlen)]
      · apply lookup_none_of_sublist hsub2
        rw [hstep]
        show lookup (eraseEntry ((recAt s.recs id0).key) s.data_map) k = none
        rw [hk0]
        exact lookup_eraseEntry_self hnd
      · rw [hfst, if_pos rfl]
        exact eraseRangeLoop_count_le rest (c + 1) (tombAndErase s id0).snd
    · have hcur1 : lookup (tombAndErase s id0).snd.data_map k = some cid := by
        cases hl : lookup s.data_map ((recAt s.recs id0).key) with
        | none => rw [tombAndErase_none hl]; exact hcur
        | some j2 =>
          rw [tombAndErase_some hl]
          show lookup (eraseEntry ((recAt s.recs id0).key) s.data_map) k = some cid
          rw [lookup_eraseEntry_ne _ (fun he => hk0 he.symm)]
          exact hcur
      have hex1 : ∃ i ∈ rest, (recAt (tombAndErase s id0).snd.recs i).key = k := by
        obtain ⟨i, hi, hik⟩ := hex
        rcases List.mem_cons.mp hi with hi | hi
        · exact absurd (hi ▸ hik) hk0
        · exact ⟨i, hi, by rw [E1.keyEq i]; exact hik⟩
      have hres := ih (if (tombAndErase s id0).fst then c + 1 else c)
        (tombAndErase s id0).snd k cid (nodup_keys_sublist hsub1 hnd)
        (by rw [E1.len]; exact hcltlen) hex1 hcur1
      refine ⟨hres.1, hres.2.1, ?_⟩
      refine le_trans ?_ hres.2.2
      by_cases hb : (tombAndErase s id0).fst
      · rw [if_pos hb]; omega
      · rw [if_neg hb]

theorem get_range_subset (recs : List (Rec K V)) (q : List Nat) (a b : Int) :
    ∀ id ∈ get_range recs q a b, id ∈ q := by
  intro id hid
  unfold get_range at hid
  exact List.drop_subset _ _ (List.take_subset _ _ hid)

theorem eraseOrderLoop_spec {t n : Int} :
    ∀ (l : List Nat) (c : Nat) (s : SMap K V), Inv s t → (∀ id ∈ l, id ∈ s.queue) →
      ((c : Int) < n) →
      (((eraseOrderLoop n t l c s).fst : Int) ≤ n ∧
       (eraseOrderLoop n t l c s).snd.queue = s.queue ∧
       (∀ j, is_expire t (recAt s.recs j) = true →
         recAt (eraseOrderLoop n t l c s).snd.recs j = recAt s.recs j)) := by
  intro l
  induction l with
  | nil =>
    intro c s hinv hq hc
    simp only [eraseOrderLoop]
    exact ⟨le_of_lt hc, trivial, fun j _ => trivial⟩
  | cons id rest ih =>
    intro c s hinv hq hc
    simp only [eraseOrderLoop]
    by_cases hexp : is_expire t (recAt s.recs id)
    · rw [if_pos hexp]
      exact ih c s hinv (fun x hx => hq x (List.mem_cons_of_mem _ hx)) hc
    · rw [if_neg hexp]
      have hexp2 : is_expire t (recAt s.recs id) = false := by simpa using hexp
      have hql : lookup s.data_map ((recAt s.recs id).key) = some id :=
        hinv.qlive id (hq id (by simp)) hexp2
      have hstep := tombAndErase_some hql
      have hfst : (tombAndErase s id).fst = true := by rw [hstep]
      have hrecs : (tombAndErase s id).snd.recs = tombAt (tombAt s.recs id) id := by
        rw [hstep]
      have hqueue : (tombAndErase s id).snd.queue = s.queue :=
        (tombAndErase_evo s id).2.2.1
      have hdead : ∀ j, is_expire t (recAt s.recs j) = true →
          recAt (tombAndErase s id).snd.recs j = recAt s.recs j := by
        intro j hj
        have hji : j ≠ id := by
          intro he; rw [he, hexp2] at hj; exact absurd hj (by simp)
        rw [hrecs, recAt_tombAt_ne _ hji, recAt_tombAt_ne _ hji]
      have hc' : (if (tombAndErase s id).fst then c + 1 else c) = c + 1 := by
        rw [hfst]; simp
      rw [hc']
      by_cases hstop : n ≤ ((c + 1 : Nat) : Int)
      · rw [if_pos hstop]
        refine ⟨?_, by rw [hqueue], hdead⟩
        show ((c + 1 : Nat) : Int) ≤ n
        push_cast
        omega
      · rw [if_neg hstop]
        have hinv1 := inv_tombAndErase hinv id
        have hq1 : ∀ x ∈ rest, x ∈ (tombAndErase s id).snd.queue := by
          intro x hx; rw [hqueue]; exact hq x (List.mem_cons_of_mem _ hx)
        have hlt1 : (((c + 1 : Nat)) : Int) < n := by
          push_cast at hstop ⊢
          omega
        have hrec := ih (c + 1) (tombAndErase s id).snd hinv1 hq1 hlt1
        refine ⟨hrec.1, ?_, ?_⟩
        · rw [hrec.2.1, hqueue]
        · intro j hj
          have hj1 : is_expire t (recAt (tombAndErase s id).snd.recs j) = true := by
            rw [hdead j hj]; exact hj
          rw [hrec.2.2 j hj1, hdead j hj]

theorem getOrderLoop_take_filter {t : Int} {n : Int} :
    ∀ (l : List Nat) (c : Nat) (recs : List (Rec K V)), ((c : Int) < n) →
      getOrderLoop n t recs l c =
        ((l.map (recAt recs)).filter (fun r => !is_expire t r)).take (n - (c : Int)).toNat := by
  intro l
  induction l with
  | nil => intro c recs hc; simp [getOrderLoop]
  | cons id rest ih =>
    intro c recs hc
    simp only [getOrderLoop]
    by_cases hexp : is_expire t (recAt recs id)
    · rw [if_pos hexp]
      rw [ih c recs hc]
      simp [hexp]
    · rw [if_neg hexp]
      have hexp2 : is_expire t (recAt recs id) = false := by simpa using hexp
      have hfilter : ((id :: rest).map (recAt recs)).filter (fun r => !is_expire t r)
          = recAt recs id :: (rest.map (recAt recs)).filter (fun r => !is_expire t r) := by
        simp [hexp2]
      rw [hfilter]
      obtain ⟨m, hm⟩ : ∃ m, (n - (c : Int)).toNat = m + 1 := ⟨(n - (c : Int)).toNat - 1, by omega⟩
      rw [hm, List.take_succ_cons]
      by_cases hstop : n ≤ ((c + 1 : Nat) : Int)
      · rw [if_pos hstop]
        have hm0 : m = 0 := by omega
        rw [hm0]
        simp
      · rw [if_neg hstop]
        have hlt2 := not_le.mp hstop
        have harg : (n - ((c + 1 : Nat) : Int)).toNat = m := by omega
        rw [ih (c + 1) recs hlt2, harg]

/-! ### Reachability of the concrete scenario states -/

theorem reach_st1 : Reach st1 0 := Reach.rInsert 1 0 5 Reach.init

theorem reach_stTick : Reach stTick 10 :=
  Reach.rTick (Reach.tmAdv reach_st1 (by decide))

theorem reach_stA : Reach stA 10 :=
  Reach.rInsert 1 0 (-1) (Reach.tmAdv Reach.init (by decide))

theorem reach_stB : Reach stB 20 :=
  Reach.rUpdate 1 1 0 (Reach.tmAdv reach_stA (by decide))

theorem reach_stLive : Reach stLive 0 := Reach.rInsert 1 0 (-1) Reach.init

/-! ### The claims -/

/-- Claim C1 (counterexample): insert key 1 with a 5 ms TTL at time 0, then run
the incremental `tick` at time 10.  The resulting state is reachable, key 1 is
still present in the LookupTable, and the record it maps to is tombstoned —
refuting the claim that no key in the LookupTable ever maps to a tombstoned
record (`tick` tombstones expired heap tops without erasing their map
entries). -/
theorem claim1_counterexample :
    Reach stTick 10 ∧ lookup stTick.data_map 1 = some 0 ∧
      (recAt stTick.recs 0).is_delete = true :=
  ⟨reach_stTick, by decide, by decide⟩

/-- Claim C1 (amended): in every reachable state, a key of the LookupTable maps
to a tombstoned record only when that record is already past its TTL deadline;
equivalently, no key ever maps to a tombstoned record that would otherwise
still be live. -/
theorem claim1_amended {s : SMap K V} {t : Int} (h : Reach s t) :
    ∀ p ∈ s.data_map, (recAt s.recs p.2).is_delete = true →
      timeExpired t (recAt s.recs p.2) :=
  (reach_inv h).mdel

/-- Witness for the amended claim C1 at the concrete tick scenario. -/
theorem claim1_witness : timeExpired 10 (recAt stTick.recs 0) :=
  claim1_amended reach_stTick (1, 0) (by decide) (by decide)

/-- Claim C2 (amended): `get_by_key` returns none with no mutation when the key
is absent; when the key is present but its record is expired it removes the
entry from the LookupTable and returns none while leaving the record arena —
and hence the tombstone flag — unchanged; when the record is live it returns a
copy of the value with no mutation. -/
theorem claim2_amended {s : SMap K V} {t : Int} (k : K) :
    (lookup s.data_map k = none → get_by_key k t s = (none, s)) ∧
    (∀ id, lookup s.data_map k = some id → is_expire t (recAt s.recs id) = true →
      get_by_key k t s =
        Prod.mk none { s with data_map := eraseEntry k s.data_map }) ∧
    (∀ id, lookup s.data_map k = some id → is_expire t (recAt s.recs id) = false →
      get_by_key k t s = (some (recAt s.recs id).value, s)) := by
  refine ⟨fun h => by simp [get_by_key, h], ?_, ?_⟩
  · intro id h hexp
    simp [get_by_key, h, hexp]
  · intro id h hexp
    simp [get_by_key, h, hexp]

/-- Witness for the amended claim C2: the expired-read case at `st1`. -/
theorem claim2_witness :
    get_by_key 1 10 st1 =
      Prod.mk (none : Option Nat) { st1 with data_map := eraseEntry 1 st1.data_map } :=
  (claim2_amended (s := st1) (t := 10) 1).2.1 0 (by decide) (by decide)

/-- Claim C2 (counterexample): at `st1` at time 10, key 1 is present and its
record is expired; `get_by_key` removes the key and returns none, but the
record's tombstone flag stays false — refuting "get tombstones the record". -/
theorem claim2_counterexample :
    lookup st1.data_map 1 = some 0 ∧ is_expire 10 (recAt st1.recs 0) = true ∧
    (get_by_key 1 10 st1).fst = none ∧
    lookup (get_by_key 1 10 st1).snd.data_map 1 = none ∧
    (recAt (get_by_key 1 10 st1).snd.recs 0).is_delete = false := by
  decide

/-- Claim C4: in every reachable state the OrderIndex (`_queue`) is sorted in
non-decreasing `insert_time` order; reachability closes the invariant under
every operation of the store together with the serialized monotone clock. -/
theorem claim4_sorted {s : SMap K V} {t : Int} (h : Reach s t) :
    s.queue.Pairwise
      (fun a b => (recAt s.recs a).insert_time ≤ (recAt s.recs b).insert_time) :=
  (reach_inv h).qsorted

/-- Witness for claim C4 at the two-record state `stB`. -/
theorem claim4_witness :
    stB.queue.Pairwise
      (fun a b => (recAt stB.recs a).insert_time ≤ (recAt stB.recs b).insert_time) :=
  claim4_sorted reach_stB

/-- Claim C9: in every reachable state, every live (neither tombstoned nor
expired) record of the OrderIndex has its key in the LookupTable mapping back
to that very record, and consequently at most one live record exists per
key. -/
theorem claim9_live_agree {s : SMap K V} {t : Int} (h : Reach s t) :
    (∀ id ∈ s.queue, is_expire t (recAt s.recs id) = false →
      lookup s.data_map (recAt s.recs id).key = some id) ∧
    (∀ id1 ∈ s.queue, ∀ id2 ∈ s.queue,
      is_expire t (recAt s.recs id1) = false → is_expire t (recAt s.recs id2) = false →
      (recAt s.recs id1).key = (recAt s.recs id2).key → id1 = id2) := by
  have hinv := reach_inv h
  refine ⟨hinv.qlive, ?_⟩
  intro id1 h1 id2 h2 hl1 hl2 hk
  have q1 := hinv.qlive id1 h1 hl1
  have q2 := hinv.qlive id2 h2 hl2
  rw [hk] at q1
  exact Option.some_injective _ (q1.symm.trans q2)

/-- Witness for claim C9 at the state `stB`. -/
theorem claim9_witness :
    (∀ id ∈ stB.queue, is_expire 20 (recAt stB.recs id) = false →
      lookup stB.data_map (recAt stB.recs id).key = some id) ∧
    (∀ id1 ∈ stB.queue, ∀ id2 ∈ stB.queue,
      is_expire 20 (recAt stB.recs id1) = false →
      is_expire 20 (recAt stB.recs id2) = false →
      (recAt stB.recs id1).key = (recAt stB.recs id2).key → id1 = id2) :=
  claim9_live_agree reach_stB

/-- Claim C3 (counterexample): with a single live record, `erase_by_order 0`
tombstones it, removes it, and returns a count of 1 — exceeding `n = 0`,
because the stop test `count >= n` runs only after a removal. -/
theorem claim3_counterexample :
    Reach stLive 0 ∧ (erase_by_order 0 true 0 stLive).fst = 1 :=
  ⟨reach_stLive, by decide⟩

/-- Claim C3 (amended): for every `n ≥ 1` and reachable state, `erase_by_order`
returns a count of at most `n`, leaves the OrderIndex structure itself
unchanged, and leaves every already-dead record (tombstoned or expired)
entirely untouched — so an already-dead record is never tombstoned again nor
counted as newly removed.  (For `n ≤ 0` the code can still remove one live
record and report 1.) -/
theorem claim3_amended {s : SMap K V} {t : Int} (h : Reach s t) (n : Int)
    (asc : Bool) (hn : 1 ≤ n) :
    (((erase_by_order n asc t s).fst : Int) ≤ n ∧
     (erase_by_order n asc t s).snd.queue = s.queue ∧
     (∀ j, is_expire t (recAt s.recs j) = true →
       recAt (erase_by_order n asc t s).snd.recs j = recAt s.recs j)) := by
  have hinv := reach_inv h
  unfold erase_by_order
  cases asc with
  | true =>
    exact eraseOrderLoop_spec s.queue 0 s hinv (fun x hx => hx) (by omega)
  | false =>
    exact eraseOrderLoop_spec s.queue.reverse 0 s hinv
      (fun x hx => List.mem_reverse.mp hx) (by omega)

/-- Witness for the amended claim C3 at `stLive` with `n = 1`. -/
theorem claim3_witness :
    (((erase_by_order 1 true 0 stLive).fst : Int) ≤ 1 ∧
     (erase_by_order 1 true 0 stLive).snd.queue = stLive.queue ∧
     (∀ j, is_expire 0 (recAt stLive.recs j) = true →
       recAt (erase_by_order 1 true 0 stLive).snd.recs j = recAt stLive.recs j)) :=
  claim3_amended reach_stLive 1 true (by decide)

/-- Claim C5 (counterexample): in the reachable state `stB` the stale record of
key 1 (arena id 0, insert time 10) lies in the subrange of the range [5, 15]
while the current record (arena id 1, insert time 20) lies outside it; yet
`erase_by_time_range 5 15` tombstones the current record — refuting
"tombstones exactly the records in the contiguous subrange [low, high)". -/
theorem claim5_counterexample :
    Reach stB 20 ∧
    get_range stB.recs stB.queue 5 15 = [0] ∧
    (recAt stB.recs 1).is_delete = false ∧
    (recAt (erase_by_time_range 5 15 stB).snd.recs 1).is_delete = true ∧
    (erase_by_time_range 5 15 stB).fst = 1 :=
  ⟨reach_stB, by decide, by decide, by decide, by decide⟩

/-- Claim C5 (amended): `erase_by_time_range` is a no-op returning 0 for
`start > end`.  For `start ≤ end` it tombstones every record of the
`get_range` subrange [low, high) of the OrderIndex, removes every
still-present key of those records from the LookupTable, returns exactly the
number of entries removed from the LookupTable, and any newly tombstoned
record is either in the subrange or was the LookupTable's current record for
the key of a subrange record (erasure being by key). -/
theorem claim5_amended {s : SMap K V} {t : Int} (h : Reach s t) (a b : Int) :
    (b < a → erase_by_time_range a b s = (0, s)) ∧
    (a ≤ b →
      ((∀ id ∈ get_range s.recs s.queue a b,
        (recAt (erase_by_time_range a b s).snd.recs id).is_delete = true) ∧
      (∀ id ∈ get_range s.recs s.queue a b,
        lookup (erase_by_time_range a b s).snd.data_map ((recAt s.recs id).key) = none) ∧
      ((erase_by_time_range a b s).fst +
        (erase_by_time_range a b s).snd.data_map.length = s.data_map.length) ∧
      (∀ j, (recAt (erase_by_time_range a b s).snd.recs j).is_delete = true →
        (recAt s.recs j).is_delete = true ∨ j ∈ get_range s.recs s.queue a b ∨
          ∃ i ∈ get_range s.recs s.queue a b,
            lookup s.data_map ((recAt s.recs i).key) = some j))) := by
  have hinv := reach_inv h
  constructor
  · intro hba
    simp [erase_by_time_range, hba]
  · intro hab
    have hba : ¬ b < a := not_lt.mpr hab
    have hunf : erase_by_time_range a b s
        = eraseRangeLoop (get_range s.recs s.queue a b) 0 s := by
      simp [erase_by_time_range, hba]
    rw [hunf]
    refine ⟨?_, ?_, ?_, ?_⟩
    · exact eraseRangeLoop_tombstones _ 0 s
        (fun id hid => hinv.qlt id (get_range_subset s.recs s.queue a b id hid))
    · exact eraseRangeLoop_keys_gone _ 0 s hinv.mnodup
    · have hcount := eraseRangeLoop_count_eq (get_range s.recs s.queue a b) 0 s
      omega
    · exact eraseRangeLoop_frame _ 0 s hinv.mnodup

/-- Witness for the amended claim C5: the count equation at `stB`. -/
theorem claim5_witness :
    (erase_by_time_range 5 15 stB).fst +
      (erase_by_time_range 5 15 stB).snd.data_map.length = stB.data_map.length := by
  have h := (claim5_amended reach_stB 5 15).2 (by decide)
  exact h.2.2.1

/-- Claim C8 (counterexample): with one live record, `get_by_order 0` returns a
list of length 1 > 0, because the stop test `count >= n` runs only after a
record has been collected. -/
theorem claim8_counterexample :
    Reach stLive 0 ∧ (get_by_order 0 true 0 stLive).length = 1 :=
  ⟨reach_stLive, by decide⟩

/-- Claim C8 (amended): for every `n ≥ 1`, `get_by_order` equals the first `n`
non-expired records of a snapshot of the OrderIndex walked from the chosen
end; hence it returns at most `n` records, all of them live.  It is a pure
function of the state — the store is not mutated.  (For `n ≤ 0` a single
record can still be returned.) -/
theorem claim8_amended {s : SMap K V} (n : Int) (asc : Bool) (t : Int) (hn : 1 ≤ n) :
    get_by_order n asc t s =
      (((if asc then s.queue else s.queue.reverse).map (recAt s.recs)).filter
        (fun r => !is_expire t r)).take n.toNat ∧
    (get_by_order n asc t s).length ≤ n.toNat ∧
    (∀ r ∈ get_by_order n asc t s, is_expire t r = false) := by
  have hchar : get_by_order n asc t s =
      (((if asc then s.queue else s.queue.reverse).map (recAt s.recs)).filter
        (fun r => !is_expire t r)).take n.toNat := by
    unfold get_by_order
    rw [getOrderLoop_take_filter _ 0 s.recs (by omega)]
    norm_num
  refine ⟨hchar, ?_, ?_⟩
  · rw [hchar]
    exact List.length_take_le _ _
  · intro r hr
    rw [hchar] at hr
    have hmem := List.take_subset _ _ hr
    have := (List.mem_filter.mp hmem).2
    simpa using this

/-- Witness for the amended claim C8 at `stLive` with `n = 1`. -/
theorem claim8_witness :
    get_by_order 1 true 0 stLive =
      (((if true then stLive.queue else stLive.queue.reverse).map (recAt stLive.recs)).filter
        (fun r => !is_expire 0 r)).take (1 : Int).toNat ∧
    (get_by_order 1 true 0 stLive).length ≤ (1 : Int).toNat ∧
    (∀ r ∈ get_by_order 1 true 0 stLive, is_expire 0 r = false) :=
  claim8_amended (s := stLive) 1 true 0 (by decide)

/-- Claim C10: if a stale, already tombstoned record for key `k` falls in the
erased subrange while `k`'s current record (a different arena id, outside the
subrange) is still in the LookupTable, then `erase_by_time_range` tombstones
the current record, removes `k`, and counts it — erasure is by key, not by
record identity. -/
theorem claim10_stale_range_erases_current {s : SMap K V} {t : Int} (h : Reach s t)
    (a b : Int) (k : K) (rid cid : Nat)
    (hab : a ≤ b)
    (hrid : rid ∈ get_range s.recs s.queue a b)
    (hkey : (recAt s.recs rid).key = k)
    (hstale : (recAt s.recs rid).is_delete = true)
    (hcur : lookup s.data_map k = some cid)
    (hout : cid ∉ get_range s.recs s.queue a b) :
    (recAt (erase_by_time_range a b s).snd.recs cid).is_delete = true ∧
    lookup (erase_by_time_range a b s).snd.data_map k = none ∧
    1 ≤ (erase_by_time_range a b s).fst := by
  have hinv := reach_inv h
  have hba : ¬ b < a := not_lt.mpr hab
  have hunf : erase_by_time_range a b s
      = eraseRangeLoop (get_range s.recs s.queue a b) 0 s := by
    simp [erase_by_time_range, hba]
  rw [hunf]
  exact eraseRangeLoop_hits_key _ 0 s k cid hinv.mnodup
    (hinv.mlt _ (lookup_mem hcur)) ⟨rid, hrid, hkey⟩ hcur

/-- Witness for claim C10 at `stB` with range [5, 15]. -/
theorem claim10_witness :
    (recAt (erase_by_time_range 5 15 stB).snd.recs 1).is_delete = true ∧
    lookup (erase_by_time_range 5 15 stB).snd.data_map 1 = none ∧
    1 ≤ (erase_by_time_range 5 15 stB).fst :=
  claim10_stale_range_erases_current reach_stB 5 15 1 0 1
    (by decide) (by decide) (by decide) (by decide) (by decide) (by decide)

/-- Claim C6: for a key present in the store, `update_value` with TTL argument
0 (the KeepExisting policy) replaces the record with a fresh one whose insert
time is the acquisition time `u`, whose TTL interval is the old record's
interval, and whose expiry deadline is `u + interval` — the deadline is
re-based at the new insert time, not the old absolute deadline — and a
never-expiring record (interval -1) stays never-expiring; the old record is
tombstoned. -/
theorem claim6_update_keep {s : SMap K V} {t : Int} (h : Reach s t) (k : K) (v : V)
    (u : Int) {oldId : Nat} (hl : lookup s.data_map k = some oldId) :
    (update_value k v 0 u s).fst = true ∧
    lookup (update_value k v 0 u s).snd.data_map k = some s.recs.length ∧
    recAt (update_value k v 0 u s).snd.recs s.recs.length
      = mkKV k v (recAt s.recs oldId).expire_time_interval u ∧
    (recAt (update_value k v 0 u s).snd.recs s.recs.length).insert_time = u ∧
    (recAt (update_value k v 0 u s).snd.recs s.recs.length).expire_time
      = u + (recAt s.recs oldId).expire_time_interval ∧
    (recAt (update_value k v 0 u s).snd.recs oldId).is_delete = true ∧
    ((recAt s.recs oldId).expire_time_interval = -1 →
      ∀ w : Int, is_expire w (recAt (update_value k v 0 u s).snd.recs s.recs.length)
        = false) := by
  have hinv := reach_inv h
  have hmem := lookup_mem hl
  have hkey : (recAt s.recs oldId).key = k := hinv.mkey _ hmem
  have holdlt : oldId < s.recs.length := hinv.mlt _ hmem
  have hnd := hinv.mnodup
  have hlk : lookup s.data_map ((recAt s.recs oldId).key) = some oldId := by
    rw [hkey]; exact hl
  have hstep := tombAndErase_some hlk
  have hsmid_dm : (tombAndErase s oldId).snd.data_map = eraseEntry k s.data_map := by
    rw [hstep, hkey]
  have hsmid_recs : (tombAndErase s oldId).snd.recs
      = tombAt (tombAt s.recs oldId) oldId := by
    rw [hstep]
  have hsmid_len : (tombAndErase s oldId).snd.recs.length = s.recs.length := by
    rw [hsmid_recs, tombAt_length, tombAt_length]
  have hupdate : update_value k v 0 u s =
      Prod.mk true (insert_without_lock k
        (mkKV k v (recAt s.recs oldId).expire_time_interval u)
        (tombAndErase s oldId).snd).snd := by
    by_cases him : (recAt s.recs oldId).expire_time_interval = -1
    · simp [update_value, hl, him, tombAndErase,
        (recAt_tombAt_fields s.recs oldId oldId).1]
    · simp [update_value, hl, him, tombAndErase,
        (recAt_tombAt_fields s.recs oldId oldId).1]
  have hcond : (lookup (tombAndErase s oldId).snd.data_map k).isSome = false := by
    rw [hsmid_dm, lookup_eraseEntry_self hnd]
    rfl
  have hins : insert_without_lock k
      (mkKV k v (recAt s.recs oldId).expire_time_interval u) (tombAndErase s oldId).snd
      = Prod.mk true
        { recs := (tombAndErase s oldId).snd.recs
            ++ [mkKV k v (recAt s.recs oldId).expire_time_interval u],
          data_map := mapInsert k (tombAndErase s oldId).snd.recs.length
            (tombAndErase s oldId).snd.data_map,
          min_expire_heap := (tombAndErase s oldId).snd.min_expire_heap
            ++ [(tombAndErase s oldId).snd.recs.length],
          queue := (tombAndErase s oldId).snd.queue
            ++ [(tombAndErase s oldId).snd.recs.length] } := by
    simp [insert_without_lock, hcond]
  rw [hupdate, hins]
  have hRlen : recAt ((tombAndErase s oldId).snd.recs
      ++ [mkKV k v (recAt s.recs oldId).expire_time_interval u]) s.recs.length
      = mkKV k v (recAt s.recs oldId).expire_time_interval u := by
    rw [← hsmid_len, recAt_append_len]
  refine ⟨rfl, ?_, ?_, ?_, ?_, ?_, ?_⟩
  · show lookup (mapInsert k (tombAndErase s oldId).snd.recs.length
      (tombAndErase s oldId).snd.data_map) k = some s.recs.length
    rw [lookup_mapInsert_self, hsmid_len]
  · exact hRlen
  · show (recAt ((tombAndErase s oldId).snd.recs
        ++ [mkKV k v (recAt s.recs oldId).expire_time_interval u])
        s.recs.length).insert_time = u
    rw [hRlen]
    rfl
  · show (recAt ((tombAndErase s oldId).snd.recs
        ++ [mkKV k v (recAt s.recs oldId).expire_time_interval u])
        s.recs.length).expire_time = u + (recAt s.recs oldId).expire_time_interval
    rw [hRlen]
    rfl
  · show (recAt ((tombAndErase s oldId).snd.recs
        ++ [mkKV k v (recAt s.recs oldId).expire_time_interval u])
        oldId).is_delete = true
    rw [recAt_append_lt _ _ (by rw [hsmid_len]; exact holdlt), hsmid_recs]
    exact is_delete_tombAt_mono _ (by rw [recAt_tombAt_self s.recs holdlt])
  · intro him w
    show is_expire w (recAt ((tombAndErase s oldId).snd.recs
        ++ [mkKV k v (recAt s.recs oldId).expire_time_interval u]) s.recs.length) = false
    rw [hRlen]
    simp [mkKV, is_expire, him]

/-- Witness for claim C6: update key 1 of `st1` (interval 5, inserted at time
0) with value 9 at time 3 under the KeepExisting policy. -/
theorem claim6_witness :
    (update_value 1 9 0 3 st1).fst = true ∧
    lookup (update_value 1 9 0 3 st1).snd.data_map 1 = some st1.recs.length ∧
    recAt (update_value 1 9 0 3 st1).snd.recs st1.recs.length
      = mkKV 1 9 (recAt st1.recs 0).expire_time_interval 3 ∧
    (recAt (update_value 1 9 0 3 st1).snd.recs st1.recs.length).insert_time = 3 ∧
    (recAt (update_value 1 9 0 3 st1).snd.recs st1.recs.length).expire_time
      = 3 + (recAt st1.recs 0).expire_time_interval ∧
    (recAt (update_value 1 9 0 3 st1).snd.recs 0).is_delete = true ∧
    ((recAt st1.recs 0).expire_time_interval = -1 →
      ∀ w : Int, is_expire w (recAt (update_value 1 9 0 3 st1).snd.recs st1.recs.length)
        = false) :=
  claim6_update_keep reach_st1 1 9 3 (by decide)

/-- Claim C7: `insert` fails returning false exactly when the key is already
present in the LookupTable, in which case the store is unchanged; on success
it appends the fresh record to the OrderIndex tail, pushes it onto the
ExpiryIndex, maps the key to it in the LookupTable, and returns true. -/
theorem claim7_insert {s : SMap K V} (k : K) (v : V) (ttl now : Int) :
    ((insert k v ttl now s).fst = false ↔ (lookup s.data_map k).isSome = true) ∧
    ((lookup s.data_map k).isSome = true → (insert k v ttl now s).snd = s) ∧
    (lookup s.data_map k = none →
      (insert k v ttl now s).fst = true ∧
      (insert k v ttl now s).snd.recs = s.recs ++ [mkKV k v ttl now] ∧
      (insert k v ttl now s).snd.queue = s.queue ++ [s.recs.length] ∧
      (insert k v ttl now s).snd.min_expire_heap = s.min_expire_heap ++ [s.recs.length] ∧
      lookup (insert k v ttl now s).snd.data_map k = some s.recs.length) := by
  by_cases hl : (lookup s.data_map k).isSome
  · refine ⟨by simp [insert, insert_without_lock, hl], fun _ => ?_, fun hn => ?_⟩
    · simp [insert, insert_without_lock, hl]
    · rw [hn] at hl; simp at hl
  · have hnone : lookup s.data_map k = none := by
      cases hc : lookup s.data_map k
      · rfl
      · rw [hc] at hl; simp at hl
    refine ⟨by simp [insert, insert_without_lock, hl], fun hs => absurd hs hl, fun _ => ?_⟩
    refine ⟨by simp [insert, insert_without_lock, hl], ?_, ?_, ?_, ?_⟩
    · simp [insert, insert_without_lock, hl]
    · simp [insert, insert_without_lock, hl]
    · simp [insert, insert_without_lock, hl]
    · simp [insert, insert_without_lock, hl, lookup_mapInsert_self]

/-- Witness for claim C7: successful insert into the empty store. -/
theorem claim7_witness :
    (insert 1 2 5 0 (emptySMap : SMap Nat Nat)).fst = true ∧
    lookup (insert 1 2 5 0 (emptySMap : SMap Nat Nat)).snd.data_map 1 = some 0 := by
  obtain ⟨h1, h2, h3⟩ := claim7_insert (s := (emptySMap : SMap Nat Nat)) 1 2 5 0
  obtain ⟨ha, hb, hc, hd, he⟩ := h3 (by decide)
  exact ⟨ha, he⟩

end ThreadSafeMap
